import Mathlib

/-!
Table location and row reconstruction (`table.go`)

A shallow embedding of `table.go` of the `pdf` package and a verification
development over it.

Modelling conventions
* `float64` coordinates are exact rationals (`Coord`), so coordinates are
  finite. `classifyFrom` takes the difference of the tolerance test exactly;
  `classifyFrom64` rounds it to binary64 as the source does (`round64`), and the
  two agree unless an exact distance lies in the rounding margin above 1
  (`classifyFrom64_eq_classifyFrom`).
* `*regexp.Regexp` values are used only through `MatchString`; a matcher is the
  predicate `String → Bool` it decides.
* `map[int]string` is an association list with distinct keys, in insertion
  order (no operation of the source depends on the iteration order).
* The mutable receiver `*TableDef` (fields `startPoint`, `endPoint` and the
  anchors `x` of its columns) is threaded explicitly through the functions.
* The rows handed to the callback loop are recorded in order; the calls of the
  `action` callback are their `cells()`, one call per row.
-/

namespace Pdf

/-! ## Data model -/

/-- A coordinate (`float64` in the source). -/
abbrev Coord := ℚ

/-- The error values returned by the reader. -/
abbrev Error := String

/-- Modelled from the spec: the `Point` primitive of the package, a 2D
coordinate. -/
structure Point where
  X : Coord
  Y : Coord
deriving DecidableEq

/-- Modelled from the spec: the `Rect` primitive of the package, an axis-aligned
rectangle with `Min`/`Max` corners. -/
structure Rect where
  Min : Point
  Max : Point
deriving DecidableEq

/-- Modelled from the spec: the positioned text fragment `RectText`, text
content `S` plus its bounding rectangle. -/
structure RectText where
  S : String
  Rect : Pdf.Rect
deriving DecidableEq

/-- Modelled from the spec: a page of the external reader. `plainText` is the
result of `GetPlainText(nil)`; `GetTextByRect(observer)` invokes the observer
once per element of `observerCalls`, in order, with (position, accumulated
text so far), and then returns `texts`. -/
structure Page where
  plainText : Except Error String
  observerCalls : List (Point × String)
  texts : List RectText

/-- Modelled from the spec: the external document reader; `NumPage()` is the
length of `pages` and `Page(i)` is its `i`-th element, counted from 1. -/
structure Reader where
  pages : List Page

/-- Source `unicode.IsSpace`, the white space that `strings.TrimSpace` removes. -/
def isSpace (c : Char) : Bool :=
  let n := c.toNat
  (9 ≤ n && n ≤ 13) || n == 32 || n == 0x85 || n == 0xA0 || n == 0x1680 ||
  (0x2000 ≤ n && n ≤ 0x200A) || n == 0x2028 || n == 0x2029 || n == 0x202F ||
  n == 0x205F || n == 0x3000

/-- Source `strings.TrimSpace`: leading and trailing white space removed. -/
def TrimSpace (s : String) : String :=
  String.mk ((s.data.dropWhile isSpace).reverse.dropWhile isSpace).reverse

/-! ## Row builder -/

/-- Source `tableRow`: `cellByCol map[int]string`. -/
structure tableRow where
  cellByCol : List (Nat × String)
deriving DecidableEq

/-- Source `newRow`. -/
def newRow : tableRow := ⟨[]⟩

/-- Map assignment `m[k] = v`: overwrite the value of an existing key, or add
the key. -/
def mapSet (k : Nat) (v : String) : List (Nat × String) → List (Nat × String)
  | [] => [(k, v)]
  | (k1, v1) :: rest => if k1 = k then (k, v) :: rest else (k1, v1) :: mapSet k v rest

/-- Map lookup `m[k]` of a present key. -/
def mapFind (k : Nat) : List (Nat × String) → Option String
  | [] => none
  | (k1, v1) :: rest => if k1 = k then some v1 else mapFind k rest

/-- Map read `m[k]`: the zero value `""` when the key is absent. -/
def mapGet (k : Nat) (m : List (Nat × String)) : String :=
  (mapFind k m).getD ""

/-- Source `tableRow.cellCount`. -/
def tableRow.cellCount (r : tableRow) : Nat := r.cellByCol.length

/-- Source `tableRow.addCell`. -/
def tableRow.addCell (r : tableRow) (cell : String) (col : Nat) : tableRow :=
  ⟨mapSet col cell r.cellByCol⟩

/-- Source `tableRow.isEmpty`. -/
def tableRow.isEmpty (r : tableRow) : Bool :=
  r.cellByCol.all (fun p => TrimSpace p.2 == "")

/-- Source `tableRow.cells`: `for i := 0; i < len(r.cellByCol); i++`. -/
def tableRow.cells (r : tableRow) : List String :=
  (List.range r.cellByCol.length).map (fun i => mapGet i r.cellByCol)

/-! ## Table and column definitions -/

/-- Source `ColumnDef`. -/
structure ColumnDef where
  Header : String → Bool
  x : Coord

/-- Source `NewColumnDef`: the anchor has the zero value. -/
def NewColumnDef (header : String → Bool) : ColumnDef := ⟨header, 0⟩

/-- Source `TableDef`. The columns are held by value: the pointers of
`Columns` are taken to be pairwise distinct and non-nil. -/
structure TableDef where
  StartRegex : String → Bool
  EndRegex : String → Bool
  Columns : List ColumnDef
  startPoint : Point
  endPoint : Point

/-! ## Table locator -/

/-- The loop of `getRelevantPages` over the remaining pages, `pages` being the
slice accumulated so far. -/
def getRelevantPagesLoop (table : TableDef) : List Page → List Page → Except Error (List Page)
  | [], pages => .ok pages
  | page :: rest, pages =>
    match page.plainText with
    | .error err => .error err
    | .ok pageText =>
      if !table.StartRegex pageText then
        getRelevantPagesLoop table rest pages
      else if table.EndRegex pageText then
        .ok (pages ++ [page])
      else
        getRelevantPagesLoop table rest (pages ++ [page])

/-- Source `TableDef.getRelevantPages`. -/
def TableDef.getRelevantPages (table : TableDef) (reader : Reader) : Except Error (List Page) :=
  getRelevantPagesLoop table reader.pages []

/-- Source `TableDef.isColumnHeader`. -/
def TableDef.isColumnHeader (table : TableDef) (text : String) : Bool :=
  table.Columns.any (fun column => column.Header (TrimSpace text))

/-- The loop of `getColumn`, `i` being the index of the head of the list. -/
def getColumnFrom (header : String) : List ColumnDef → Nat → Option Nat
  | [], _ => none
  | c :: cs, i => if c.Header header then some i else getColumnFrom header cs (i + 1)

/-- Source `TableDef.getColumn`: the column pointer is its index in `Columns`,
`none` is the nil pointer. -/
def TableDef.getColumn (table : TableDef) (header : String) : Option Nat :=
  getColumnFrom header table.Columns 0

/-- The assignment `column.x = v` through the pointer to column `k`. -/
def setColumnX : List ColumnDef → Nat → Coord → List ColumnDef
  | [], _, _ => []
  | c :: cs, 0, v => { c with x := v } :: cs
  | c :: cs, k + 1, v => c :: setColumnX cs k v

/-! ## Table parser -/

/-- The observer closure handed to `GetTextByRect` in `parse`. -/
def observer (table : TableDef) (point : Point) (accumText : String) : TableDef :=
  if table.endPoint.Y = 0 ∧ table.EndRegex accumText = true then
    { table with endPoint := point }
  else if table.startPoint.Y = 0 ∧ table.StartRegex accumText = true then
    { table with startPoint := point }
  else
    table

/-- The effect of `page.GetTextByRect(observer)` on the table: the observer
calls of the page, in order. -/
def runObserver (table : TableDef) (page : Page) : TableDef :=
  page.observerCalls.foldl (fun t call => observer t call.1 call.2) table

/-- The `continue` condition of the filter loop of `parse` for page index `i`
of `count` located pages. -/
def skipText (table : TableDef) (i count : Int) (text : RectText) : Bool :=
  text.S == "" ||
  (i == 0 && decide (text.Rect.Min.Y > table.startPoint.Y)) ||
  (i == count - 1 && decide (text.Rect.Max.Y < table.endPoint.Y))

/-- The filter and header-binding loop of `parse` (`for _, text := range texts`).
The result is the table with the anchors bound so far and `pageTexts`; `none`
in place of `pageTexts` is the nil-pointer dereference `column.x` when
`getColumn` returns nil. -/
def filterLoop (i count : Int) : TableDef → List RectText → List RectText →
    TableDef × Option (List RectText)
  | table, [], pageTexts => (table, some pageTexts)
  | table, text :: rest, pageTexts =>
    if skipText table i count text then
      filterLoop i count table rest pageTexts
    else if table.isColumnHeader text.S then
      match table.getColumn (TrimSpace text.S) with
      | none => (table, none)
      | some k =>
        filterLoop i count
          { table with Columns := setColumnX table.Columns k text.Rect.Min.X } rest pageTexts
    else
      filterLoop i count table rest (pageTexts ++ [text])

/-- The variables `rows` and `currentRow` of the row-assembly loop. -/
structure RowState where
  rows : List tableRow
  currentRow : tableRow
deriving DecidableEq

/-- The statement `if !currentRow.isEmpty() { rows = append(rows, currentRow) }`,
which closes a row. -/
def closeRow (rows : List tableRow) (currentRow : tableRow) : List tableRow :=
  if !currentRow.isEmpty then rows ++ [currentRow] else rows

/-- The inner loop `for i := range table.Columns` of the row assembly for one
fragment; `i` is the index of the head of the remaining columns and `count`
is `len(table.Columns)`. The difference of the tolerance test is taken exactly;
`classifyFrom64` is the same loop with the difference rounded to binary64. -/
def classifyFrom (count : Nat) (text : RectText) : List ColumnDef → Nat → RowState → RowState
  | [], _, st => st
  | column :: cols, i, st =>
    let diff := |text.Rect.Min.X - column.x|
    if text.Rect.Min.X = column.x ∨ diff ≤ 1 then
      let st1 : RowState :=
        if st.currentRow.cellCount = count then
          ⟨closeRow st.rows st.currentRow, newRow⟩
        else st
      ⟨st1.rows, st1.currentRow.addCell (TrimSpace text.S) i⟩
    else
      classifyFrom count text cols (i + 1) st

/-- One iteration of `for _, text := range pageTexts`. -/
def classify (columns : List ColumnDef) (st : RowState) (text : RectText) : RowState :=
  classifyFrom columns.length text columns 0 st

/-- The row-assembly loop of `parse` over `pageTexts`, followed by the closing
of the last row: the value of `rows` when the callback loop starts. -/
def assembleRows (columns : List ColumnDef) (pageTexts : List RectText) : List tableRow :=
  let st := pageTexts.foldl (classify columns) ⟨[], newRow⟩
  closeRow st.rows st.currentRow

/-- How `parse` ends: it returns (an error or nil), or it dereferences a nil
column pointer. -/
inductive Outcome where
  | returned (err : Option Error)
  | nilDeref
deriving DecidableEq

/-- The observable result of `parse`: the table as mutated, the rows handed to
the callback loop (`action(row.cells())` is called once for each, in this
order), and how the function ended. -/
structure ParseResult where
  table : TableDef
  rows : List tableRow
  outcome : Outcome

/-- The arguments of the calls of `action`, in call order. -/
def ParseResult.calls (r : ParseResult) : List (List String) :=
  r.rows.map tableRow.cells

/-- The body of the loop `for i := range pages` of `parse` for one page, up to
the callback loop: the table after the page and the value of `rows`. -/
def parsePage (table : TableDef) (i count : Int) (page : Page) :
    TableDef × Option (List tableRow) :=
  match filterLoop i count (runObserver table page) page.texts [] with
  | (table1, none) => (table1, none)
  | (table1, some pageTexts) => (table1, some (assembleRows table1.Columns pageTexts))

/-- The loop `for i := range pages` of `parse` from page index `i` on, `rows`
being the rows already handed to the callback. -/
def parseLoop (count : Int) : List Page → Int → TableDef → List tableRow → ParseResult
  | [], _, table, rows => ⟨table, rows, .returned none⟩
  | page :: rest, i, table, rows =>
    match parsePage table i count page with
    | (table1, none) => ⟨table1, rows, .nilDeref⟩
    | (table1, some pageRows) => parseLoop count rest (i + 1) table1 (rows ++ pageRows)

/-- Source `TableDef.parse`. -/
def TableDef.parse (table : TableDef) (reader : Reader) : ParseResult :=
  match table.getRelevantPages reader with
  | .error err => ⟨table, [], .returned (some err)⟩
  | .ok pages => parseLoop pages.length pages 0 table []

/-! ## Specification-side definitions and example data -/

/-- The matcher of a regular expression that is a literal: the text contains
`pat`. -/
def matchLiteral (pat : String) (s : String) : Bool := decide (pat.data <:+: s.data)

/-- The matcher of an anchored literal `^pat$`: the text is `pat`. -/
def matchExact (pat : String) (s : String) : Bool := s == pat

/-- A fragment with text `s` whose rectangle has its minimum corner at
`(x, y)` and is 20 wide and 10 high. -/
def fragment (s : String) (x y : Coord) : RectText := ⟨s, ⟨⟨x, y⟩, ⟨x + 20, y + 10⟩⟩⟩

/-- A page that renders to `text` and has no fragments. -/
def pageOf (text : String) : Page := ⟨.ok text, [], []⟩

/-- A freshly constructed table: markers `Statement` and `Total`, columns
`Name` and `Amount`. -/
def exampleTable : TableDef :=
  ⟨matchLiteral "Statement", matchLiteral "Total",
    [NewColumnDef (matchExact "Name"), NewColumnDef (matchExact "Amount")], ⟨0, 0⟩, ⟨0, 0⟩⟩

/-- The observer calls of the example pages: the start marker is seen at
`Y = 700`, the end marker at `Y = 100`. -/
def exampleCalls : List (Point × String) :=
  [(⟨10, 700⟩, "Statement"), (⟨10, 100⟩, "Statement Name Amount Alice 42 Bob 7 Total")]

/-- The one-page document of the example of the specification. -/
def examplePage : Page :=
  ⟨.ok "Statement Name Amount Alice 42 Bob 7 Total", exampleCalls,
    [fragment "Name" 10 600, fragment "Amount" 100 600, fragment "Alice" 10 500,
     fragment "42" 100 500, fragment "Bob" 11 400, fragment "7" 99 400]⟩

/-- The page text renders (`GetPlainText` returns no error). -/
def Page.renders (p : Page) : Bool :=
  match p.plainText with
  | .ok _ => true
  | .error _ => false

/-- The rendered text of the page matches `m` (false when rendering fails). -/
def Page.textMatches (p : Page) (m : String → Bool) : Bool :=
  match p.plainText with
  | .ok t => m t
  | .error _ => false

/-- The situation of the locator claim, for the document `pre ++ mid ++ pe :: post`
with `s = pre.length + 1` and `e = pre.length + mid.length + 1`: every page
renders, page `s` (the first of `mid ++ [pe]`) is the first page matching the
start marker, and page `e` (that is `pe`) is the first page at or after `s`
matching the end marker. -/
def LocatorSpan (table : TableDef) (pre mid : List Page) (pe : Page) (post : List Page) : Prop :=
  (∀ p ∈ pre ++ mid ++ pe :: post, p.renders = true) ∧
  (∀ p ∈ pre, p.textMatches table.StartRegex = false) ∧
  (∀ p ∈ (mid ++ [pe]).head?, p.textMatches table.StartRegex = true) ∧
  (∀ p ∈ mid, p.textMatches table.EndRegex = false) ∧
  pe.textMatches table.EndRegex = true

/-- A page of the example table whose only data fragment is an amount: the
headers `Name` and `Amount`, then `49` in the `Amount` column. -/
def amountOnlyPage : Page :=
  ⟨.ok "Statement Name Amount 49 Total", exampleCalls,
    [fragment "Name" 10 600, fragment "Amount" 100 600, fragment "49" 100 500]⟩

/-- A page of the example table on which the header `Amount` never appears and
a fragment lies at `X = 1/2`. -/
def strayPage : Page :=
  ⟨.ok "Statement Name Alice stray Total", exampleCalls,
    [fragment "Name" 50 600, fragment "Alice" 50 500, fragment "stray" (1 / 2) 500]⟩

/-- Every cell held under index `k`, in a finalized row or in the current row,
satisfies `P`. -/
def CellsAt (k : Nat) (P : String → Prop) (st : RowState) : Prop :=
  (∀ r ∈ st.rows, ∀ v, mapFind k r.cellByCol = some v → P v) ∧
  ∀ v, mapFind k st.currentRow.cellByCol = some v → P v

/-- An interior page of a three-page table, with an empty fragment and
fragments far above and far below the marks of the example. -/
def interiorPage : Page :=
  ⟨.ok "Statement continued", exampleCalls,
    [fragment "" 10 500, fragment "Carol" 10 900, fragment "13" 100 (-50)]⟩

/-- Specification side: the pages the locator is to return: the pages matching
the start marker that precede the first page matching both markers, then that
page (if there is one). -/
def locatedPages (table : TableDef) (pages : List Page) : List Page :=
  (pages.takeWhile
      (fun p => !(p.textMatches table.StartRegex && p.textMatches table.EndRegex))).filter
    (fun p => p.textMatches table.StartRegex) ++
  (pages.find?
    (fun p => p.textMatches table.StartRegex && p.textMatches table.EndRegex)).toList

/-- A page whose text fails to render. -/
def unreadablePage : Page := ⟨.error "unreadable page", [], []⟩

/-- Specification side: the column a fragment at `X` is classified into: the
first column, in defined order, whose anchor is within 1 of `X` (`i` is the
index of the head of the list); `none` when the fragment matches no column. -/
def columnOf (X : Coord) : List ColumnDef → Nat → Option Nat
  | [], _ => none
  | c :: cs, i => if |X - c.x| ≤ 1 then some i else columnOf X cs (i + 1)

/-- Specification side: the row holds exactly the indices `0 .. N-1` and its
emitted sequence has exactly `N` values, position `k` being the text stored for
column `k`. -/
def tableRow.isComplete (r : tableRow) (N : Nat) : Prop :=
  r.cellCount = N ∧ (∀ k, mapFind k r.cellByCol ≠ none ↔ k < N) ∧
  r.cells.length = N ∧ ∀ k, k < N → r.cells[k]? = mapFind k r.cellByCol

/-- The number of binary digits of `n`, computed with `fuel` halvings. -/
def bitsAux : Nat → Nat → Nat
  | 0, _ => 0
  | fuel + 1, n => if n = 0 then 0 else bitsAux fuel (n / 2) + 1

/-- The number of binary digits of `n` (0 for `n = 0`). -/
def bitLength (n : Nat) : Nat := bitsAux n n

/-- The binary exponent of a positive rational `a`: the integer `e` with
`2^e ≤ a < 2^(e+1)`. -/
def floorLog2 (a : ℚ) : Int :=
  let k : Int := (bitLength a.num.natAbs : Int) - (bitLength a.den : Int)
  if (2 : ℚ) ^ k ≤ a then k else k - 1

/-- Rounding to the nearest integer, ties to the even one. -/
def roundHalfEven (m : ℚ) : Int :=
  if m - ⌊m⌋ < 1 / 2 then ⌊m⌋
  else if 1 / 2 < m - ⌊m⌋ then ⌊m⌋ + 1
  else if ⌊m⌋ % 2 = 0 then ⌊m⌋
  else ⌊m⌋ + 1

/-- The rounding of the `float64` operators of the source (IEEE 754 binary64,
round to nearest, ties to even): the exact result `q` is rounded to a multiple
of `2^(e-52)`, where `e` is the binary exponent of `|q|`, not below the least
normal exponent `-1022` (so that results below `2^-1022` lie on the subnormal
grid `2^-1074`). An exact result beyond the binary64 range, for which the
source yields an infinity, is rounded here with an unbounded exponent; both
compare above 1. -/
def round64 (q : ℚ) : ℚ :=
  if q = 0 then 0
  else
    (if q < 0 then -1 else 1) *
      (roundHalfEven (|q| / (2 : ℚ) ^ (max (floorLog2 |q|) (-1022) - 52)) : ℚ) *
      (2 : ℚ) ^ (max (floorLog2 |q|) (-1022) - 52)

/-- Source lines 145-146 in `float64`: `diff := math.Abs(text.Rect.Min.X -
column.x)`, the subtraction rounded to binary64, and the test
`text.Rect.Min.X == column.x || diff <= 1`, for finite coordinates. -/
def near64 (X x : Coord) : Bool :=
  decide (X = x ∨ |round64 (X - x)| ≤ 1)

/-- The inner loop `for i := range table.Columns` of the row assembly for one
fragment, with the tolerance test computed in `float64` as the source does;
`classifyFrom` is the same loop with the difference taken exactly. -/
def classifyFrom64 (count : Nat) (text : RectText) :
    List ColumnDef → Nat → RowState → RowState
  | [], _, st => st
  | column :: cols, i, st =>
    if near64 text.Rect.Min.X column.x then
      let st1 : RowState :=
        if st.currentRow.cellCount = count then
          ⟨closeRow st.rows st.currentRow, newRow⟩
        else st
      ⟨st1.rows, st1.currentRow.addCell (TrimSpace text.S) i⟩
    else
      classifyFrom64 count text cols (i + 1) st

/-- One iteration of `for _, text := range pageTexts`, in `float64`. -/
def classify64 (columns : List ColumnDef) (st : RowState) (text : RectText) : RowState :=
  classifyFrom64 columns.length text columns 0 st

/-- The `float64` nearest to the decimal `1.1`. -/
def double1_1 : Coord := 2476979795053773 / 2 ^ 51

/-- The `float64` nearest to the decimal `0.1`. -/
def double0_1 : Coord := 3602879701896397 / 2 ^ 55

/-! ## Shared lemmas -/

theorem observer_fields (t : TableDef) (p : Point) (a : String) :
    (observer t p a).Columns = t.Columns ∧ (observer t p a).StartRegex = t.StartRegex ∧
    (observer t p a).EndRegex = t.EndRegex := by
  unfold observer
  split_ifs <;> exact ⟨rfl, rfl, rfl⟩

theorem foldl_observer_fields (calls : List (Point × String)) (t : TableDef) :
    (calls.foldl (fun t call => observer t call.1 call.2) t).Columns = t.Columns ∧
    (calls.foldl (fun t call => observer t call.1 call.2) t).StartRegex = t.StartRegex ∧
    (calls.foldl (fun t call => observer t call.1 call.2) t).EndRegex = t.EndRegex := by
  induction calls generalizing t with
  | nil => exact ⟨rfl, rfl, rfl⟩
  | cons c cs ih =>
    simp only [List.foldl_cons]
    obtain ⟨h1, h2, h3⟩ := ih (observer t c.1 c.2)
    obtain ⟨g1, g2, g3⟩ := observer_fields t c.1 c.2
    exact ⟨h1.trans g1, h2.trans g2, h3.trans g3⟩

theorem runObserver_Columns (t : TableDef) (page : Page) :
    (runObserver t page).Columns = t.Columns := (foldl_observer_fields _ t).1

/-- A located single page: `parse` runs the page loop once, with index 0 of 1. -/
theorem parse_single (table : TableDef) (page : Page) (pageText : String)
    (htext : page.plainText = .ok pageText)
    (hs : table.StartRegex pageText = true) (he : table.EndRegex pageText = true) :
    table.parse ⟨[page]⟩ = parseLoop 1 [page] 0 table [] := by
  simp [TableDef.parse, TableDef.getRelevantPages, getRelevantPagesLoop, htext, hs, he]

/-! ## C1: the worked example -/

/-- C1: for the one-page document whose text matches both markers, with columns
`Name` and `Amount` (each header matcher matching only its own header text) and
the fragments `Name`@10, `Amount`@100, `Alice`@10, `42`@100, `Bob`@11, `7`@99
in that order, none of them removed by the filter, `parse` calls the callback
exactly twice, with `["Alice","42"]` and then `["Bob","7"]`, and returns nil. -/
theorem parse_example (table : TableDef) (page : Page) (pageText : String)
    (nameH amountH : String → Bool) (x0 x1 : Coord)
    (hcols : table.Columns = [⟨nameH, x0⟩, ⟨amountH, x1⟩])
    (hname : ∀ s, nameH s = true ↔ s = "Name")
    (hamount : ∀ s, amountH s = true ↔ s = "Amount")
    (htext : page.plainText = .ok pageText)
    (hs : table.StartRegex pageText = true) (he : table.EndRegex pageText = true)
    (hfr : page.texts.map (fun t => (t.S, t.Rect.Min.X)) =
      [("Name", 10), ("Amount", 100), ("Alice", 10), ("42", 100), ("Bob", 11), ("7", 99)])
    (hkeep : ∀ t ∈ page.texts, skipText (runObserver table page) 0 1 t = false) :
    (table.parse ⟨[page]⟩).calls = [["Alice", "42"], ["Bob", "7"]] ∧
    (table.parse ⟨[page]⟩).outcome = .returned none := by
  have hc := runObserver_Columns table page
  rw [parse_single table page pageText htext hs he]
  simp only [parseLoop, parsePage]
  generalize runObserver table page = T at hc hkeep ⊢
  rw [hcols] at hc
  obtain ⟨texts, hT⟩ : ∃ l, page.texts = l := ⟨_, rfl⟩
  rw [hT] at hfr hkeep ⊢
  rcases texts with _ | ⟨t1, _ | ⟨t2, _ | ⟨t3, _ | ⟨t4, _ | ⟨t5, _ | ⟨t6, _ | ⟨t7, r⟩⟩⟩⟩⟩⟩⟩ <;>
    simp only [List.map_cons, List.map_nil, List.cons.injEq, Prod.mk.injEq, and_true, and_false,
      reduceCtorEq] at hfr
  obtain ⟨⟨s1, e1⟩, ⟨s2, e2⟩, ⟨s3, e3⟩, ⟨s4, e4⟩, ⟨s5, e5⟩, ⟨s6, e6⟩⟩ := hfr
  simp only [List.mem_cons, List.mem_singleton, forall_eq_or_imp, forall_eq,
    List.not_mem_nil] at hkeep
  obtain ⟨k1, k2, k3, k4, k5, k6, -⟩ := hkeep
  have hN : TrimSpace "Name" = "Name" := by decide
  have hA : TrimSpace "Amount" = "Amount" := by decide
  have h3 : TrimSpace "Alice" = "Alice" := by decide
  have h4 : TrimSpace "42" = "42" := by decide
  have h5 : TrimSpace "Bob" = "Bob" := by decide
  have h6 : TrimSpace "7" = "7" := by decide
  have n1 : nameH "Name" = true := (hname _).2 rfl
  have n3 : nameH "Alice" = false := by simpa using (hname "Alice").not.2 (by decide)
  have n4 : nameH "42" = false := by simpa using (hname "42").not.2 (by decide)
  have n5 : nameH "Bob" = false := by simpa using (hname "Bob").not.2 (by decide)
  have n6 : nameH "7" = false := by simpa using (hname "7").not.2 (by decide)
  have n2 : nameH "Amount" = false := by simpa using (hname "Amount").not.2 (by decide)
  have a2 : amountH "Amount" = true := (hamount _).2 rfl
  have a3 : amountH "Alice" = false := by simpa using (hamount "Alice").not.2 (by decide)
  have a4 : amountH "42" = false := by simpa using (hamount "42").not.2 (by decide)
  have a5 : amountH "Bob" = false := by simpa using (hamount "Bob").not.2 (by decide)
  have a6 : amountH "7" = false := by simpa using (hamount "7").not.2 (by decide)
  have hf : filterLoop 0 1 T [t1, t2, t3, t4, t5, t6] [] =
      (⟨T.StartRegex, T.EndRegex, [⟨nameH, 10⟩, ⟨amountH, 100⟩], T.startPoint, T.endPoint⟩,
        some [t3, t4, t5, t6]) := by
    have k2b : skipText { T with Columns := [⟨nameH, 10⟩, ⟨amountH, x1⟩] } 0 1 t2 = false := k2
    have k3b : skipText { T with Columns := [⟨nameH, 10⟩, ⟨amountH, 100⟩] } 0 1 t3 = false := k3
    have k4b : skipText { T with Columns := [⟨nameH, 10⟩, ⟨amountH, 100⟩] } 0 1 t4 = false := k4
    have k5b : skipText { T with Columns := [⟨nameH, 10⟩, ⟨amountH, 100⟩] } 0 1 t5 = false := k5
    have k6b : skipText { T with Columns := [⟨nameH, 10⟩, ⟨amountH, 100⟩] } 0 1 t6 = false := k6
    simp [filterLoop, k1, k2b, k3b, k4b, k5b, k6b, TableDef.isColumnHeader, TableDef.getColumn,
      getColumnFrom, hc, setColumnX, s1, s2, s3, s4, s5, s6, e1, e2, hN, hA, h3, h4, h5, h6,
      n1, n2, n3, n4, n5, n6, a2, a3, a4, a5, a6]
  have hr : assembleRows [⟨nameH, 10⟩, ⟨amountH, 100⟩] [t3, t4, t5, t6] =
      [⟨[(0, "Alice"), (1, "42")]⟩, ⟨[(0, "Bob"), (1, "7")]⟩] := by
    have c3 : classify [⟨nameH, 10⟩, ⟨amountH, 100⟩] ⟨[], newRow⟩ t3 =
        ⟨[], ⟨[(0, "Alice")]⟩⟩ := by
      simp [classify, classifyFrom, newRow, tableRow.cellCount, tableRow.addCell, mapSet, s3, e3,
        h3]
    have c4 : classify [⟨nameH, 10⟩, ⟨amountH, 100⟩] ⟨[], ⟨[(0, "Alice")]⟩⟩ t4 =
        ⟨[], ⟨[(0, "Alice"), (1, "42")]⟩⟩ := by
      simp [classify, classifyFrom, tableRow.cellCount, tableRow.addCell, mapSet, s4, e4, h4]
      norm_num [abs_le]
    have c5 : classify [⟨nameH, 10⟩, ⟨amountH, 100⟩] ⟨[], ⟨[(0, "Alice"), (1, "42")]⟩⟩ t5 =
        ⟨[⟨[(0, "Alice"), (1, "42")]⟩], ⟨[(0, "Bob")]⟩⟩ := by
      have hne : tableRow.isEmpty ⟨[(0, "Alice"), (1, "42")]⟩ = false := by decide
      simp [classify, classifyFrom, tableRow.cellCount, tableRow.addCell, mapSet, s5, e5, h5,
        closeRow, hne, newRow]
      norm_num [abs_le]
    have c6 : classify [⟨nameH, 10⟩, ⟨amountH, 100⟩]
        ⟨[⟨[(0, "Alice"), (1, "42")]⟩], ⟨[(0, "Bob")]⟩⟩ t6 =
        ⟨[⟨[(0, "Alice"), (1, "42")]⟩], ⟨[(0, "Bob"), (1, "7")]⟩⟩ := by
      simp [classify, classifyFrom, tableRow.cellCount, tableRow.addCell, mapSet, s6, e6, h6]
      norm_num [abs_le]
    have hne : tableRow.isEmpty ⟨[(0, "Bob"), (1, "7")]⟩ = false := by decide
    simp only [assembleRows, List.foldl, c3, c4, c5, c6, closeRow, hne]
    rfl
  rw [hf]
  simp only [hr, List.nil_append, ParseResult.calls]
  exact ⟨by decide, trivial⟩

/-- Witness of C1 on the example document. -/
theorem parse_example_witness :
    (exampleTable.parse ⟨[examplePage]⟩).calls = [["Alice", "42"], ["Bob", "7"]] ∧
    (exampleTable.parse ⟨[examplePage]⟩).outcome = .returned none :=
  parse_example exampleTable examplePage "Statement Name Amount Alice 42 Bob 7 Total"
    (matchExact "Name") (matchExact "Amount") 0 0 rfl
    (by simp [matchExact]) (by simp [matchExact]) rfl (by decide) (by decide)
    (by simp [examplePage, fragment]) (by decide!)

/-! ## The table locator (C2, C3, C4) -/

theorem Page.plainText_of_renders {p : Page} (h : p.renders = true) :
    ∃ t, p.plainText = .ok t := by
  unfold Page.renders at h
  split at h
  · exact ⟨_, by assumption⟩
  · exact absurd h (by simp)

theorem Page.textMatches_of_plainText {p : Page} {t : String} (h : p.plainText = .ok t)
    (m : String → Bool) : p.textMatches m = m t := by
  simp [Page.textMatches, h]

/-- A page that does not match the start marker is skipped. -/
theorem getRelevantPagesLoop_skip (table : TableDef) (p : Page) (rest acc : List Page)
    (hr : p.renders = true) (hs : p.textMatches table.StartRegex = false) :
    getRelevantPagesLoop table (p :: rest) acc = getRelevantPagesLoop table rest acc := by
  obtain ⟨t, ht⟩ := Page.plainText_of_renders hr
  rw [Page.textMatches_of_plainText ht] at hs
  simp [getRelevantPagesLoop, ht, hs]

/-- A page that matches the start marker but not the end marker is kept and the
scan goes on. -/
theorem getRelevantPagesLoop_keep (table : TableDef) (p : Page) (rest acc : List Page)
    (hs : p.textMatches table.StartRegex = true) (he : p.textMatches table.EndRegex = false) :
    getRelevantPagesLoop table (p :: rest) acc = getRelevantPagesLoop table rest (acc ++ [p]) := by
  unfold Page.textMatches at hs he
  split at hs
  · rename_i t ht
    rw [ht] at he
    simp only at he
    simp [getRelevantPagesLoop, ht, hs, he]
  · exact absurd hs (by simp)

/-- A page that matches both markers is kept and ends the scan. -/
theorem getRelevantPagesLoop_stop (table : TableDef) (p : Page) (rest acc : List Page)
    (hs : p.textMatches table.StartRegex = true) (he : p.textMatches table.EndRegex = true) :
    getRelevantPagesLoop table (p :: rest) acc = .ok (acc ++ [p]) := by
  unfold Page.textMatches at hs he
  split at hs
  · rename_i t ht
    rw [ht] at he
    simp only at he
    simp [getRelevantPagesLoop, ht, hs, he]
  · exact absurd hs (by simp)

theorem getRelevantPagesLoop_skip_all (table : TableDef) (pre rest acc : List Page)
    (hr : ∀ p ∈ pre, p.renders = true)
    (hs : ∀ p ∈ pre, p.textMatches table.StartRegex = false) :
    getRelevantPagesLoop table (pre ++ rest) acc = getRelevantPagesLoop table rest acc := by
  induction pre with
  | nil => rfl
  | cons p ps ih =>
    rw [List.cons_append, getRelevantPagesLoop_skip table p _ acc
      (hr p (List.mem_cons_self _ _)) (hs p (List.mem_cons_self _ _))]
    exact ih (fun q hq => hr q (List.mem_cons_of_mem _ hq))
      (fun q hq => hs q (List.mem_cons_of_mem _ hq))

theorem getRelevantPagesLoop_keep_all (table : TableDef) (mid rest acc : List Page)
    (hs : ∀ p ∈ mid, p.textMatches table.StartRegex = true)
    (he : ∀ p ∈ mid, p.textMatches table.EndRegex = false) :
    getRelevantPagesLoop table (mid ++ rest) acc =
      getRelevantPagesLoop table rest (acc ++ mid) := by
  induction mid generalizing acc with
  | nil => simp
  | cons p ps ih =>
    rw [List.cons_append, getRelevantPagesLoop_keep table p _ acc
      (hs p (List.mem_cons_self _ _)) (he p (List.mem_cons_self _ _)),
      ih _ (fun q hq => hs q (List.mem_cons_of_mem _ hq))
        (fun q hq => he q (List.mem_cons_of_mem _ hq))]
    simp

/-- The scan goes past pages that render and do not match both markers. -/
theorem getRelevantPagesLoop_pass_all (table : TableDef) (pre rest acc : List Page)
    (h : ∀ q ∈ pre, q.renders = true ∧
      ¬(q.textMatches table.StartRegex = true ∧ q.textMatches table.EndRegex = true)) :
    ∃ acc1, getRelevantPagesLoop table (pre ++ rest) acc =
      getRelevantPagesLoop table rest acc1 := by
  induction pre generalizing acc with
  | nil => exact ⟨acc, rfl⟩
  | cons p ps ih =>
    obtain ⟨hr, hne⟩ := h p (List.mem_cons_self _ _)
    have hps := fun q hq => h q (List.mem_cons_of_mem _ hq)
    rw [List.cons_append]
    cases hs : p.textMatches table.StartRegex with
    | false =>
      rw [getRelevantPagesLoop_skip table p _ acc hr hs]
      exact ih acc hps
    | true =>
      have he : p.textMatches table.EndRegex = false := by
        cases he : p.textMatches table.EndRegex with
        | false => rfl
        | true => exact absurd ⟨hs, he⟩ hne
      rw [getRelevantPagesLoop_keep table p _ acc hs he]
      exact ih _ hps

/-- C2 (as amended): when page `s` is the first page matching the start marker,
page `e ≥ s` is the first page at or after `s` matching the end marker, every
page renders, and every page from `s` through `e` matches the start marker,
`getRelevantPages` returns exactly the contiguous pages `s, ..., e`. -/
theorem getRelevantPages_contiguous (table : TableDef) (pre mid : List Page) (pe : Page)
    (post : List Page) (h : LocatorSpan table pre mid pe post)
    (hstart : ∀ p ∈ mid ++ [pe], p.textMatches table.StartRegex = true) :
    table.getRelevantPages ⟨pre ++ mid ++ pe :: post⟩ = .ok (mid ++ [pe]) := by
  obtain ⟨hr, hpre, -, hmid, hpe⟩ := h
  unfold TableDef.getRelevantPages
  simp only [List.append_assoc]
  rw [getRelevantPagesLoop_skip_all table pre _ []
      (fun p hp => hr p (by simp [hp])) hpre,
    getRelevantPagesLoop_keep_all table mid _ []
      (fun p hp => hstart p (by simp [hp])) hmid,
    getRelevantPagesLoop_stop table pe post _ (hstart pe (by simp)) hpe]
  simp

/-- Witness of C2 (as amended): a three-page table whose title repeats on every
page. -/
theorem getRelevantPages_contiguous_witness :
    exampleTable.getRelevantPages
      ⟨[pageOf "Cover"] ++ [pageOf "Statement 1", pageOf "Statement 2"] ++
        pageOf "Statement 3 Total" :: [pageOf "Appendix"]⟩ =
      .ok ([pageOf "Statement 1", pageOf "Statement 2"] ++ [pageOf "Statement 3 Total"]) :=
  getRelevantPages_contiguous exampleTable [pageOf "Cover"]
    [pageOf "Statement 1", pageOf "Statement 2"] (pageOf "Statement 3 Total") [pageOf "Appendix"]
    ⟨by decide, by decide, by decide, by decide, by decide⟩ (by decide)

/-- C2 (counterexample): in the document `Statement`, `continued`,
`Statement Total` page 1 is the first page matching the start marker and page 3
the first page at or after it matching the end marker, but `getRelevantPages`
returns the pages 1 and 3, not the contiguous pages 1, 2, 3. -/
theorem getRelevantPages_not_contiguous :
    LocatorSpan exampleTable [] [pageOf "Statement", pageOf "continued"]
      (pageOf "Statement Total") [] ∧
    exampleTable.getRelevantPages
      ⟨[] ++ [pageOf "Statement", pageOf "continued"] ++ pageOf "Statement Total" :: []⟩ =
      .ok [pageOf "Statement", pageOf "Statement Total"] ∧
    (Except.ok [pageOf "Statement", pageOf "Statement Total"] : Except Error (List Page)) ≠
      .ok ([pageOf "Statement", pageOf "continued"] ++ [pageOf "Statement Total"]) :=
  ⟨⟨by decide, by decide, by decide, by decide, by decide⟩, by rfl, by simp [pageOf]⟩

/-- C3: when every page renders and no page matches the start marker,
`getRelevantPages` returns the empty page list, and `parse` calls the callback
zero times and returns nil. -/
theorem parse_no_start (table : TableDef) (reader : Reader)
    (hr : ∀ p ∈ reader.pages, p.renders = true)
    (hs : ∀ p ∈ reader.pages, p.textMatches table.StartRegex = false) :
    table.getRelevantPages reader = .ok [] ∧
    (table.parse reader).calls = [] ∧
    (table.parse reader).outcome = .returned none := by
  have h : table.getRelevantPages reader = .ok [] := by
    have := getRelevantPagesLoop_skip_all table reader.pages [] [] hr hs
    rw [List.append_nil] at this
    rw [TableDef.getRelevantPages, this]
    rfl
  refine ⟨h, ?_, ?_⟩ <;> simp [TableDef.parse, h, parseLoop, ParseResult.calls]

/-- Witness of C3: a two-page document without the start marker. -/
theorem parse_no_start_witness :
    exampleTable.getRelevantPages ⟨[pageOf "Cover", pageOf "Total"]⟩ = .ok [] ∧
    (exampleTable.parse ⟨[pageOf "Cover", pageOf "Total"]⟩).calls = [] ∧
    (exampleTable.parse ⟨[pageOf "Cover", pageOf "Total"]⟩).outcome = .returned none :=
  parse_no_start exampleTable ⟨[pageOf "Cover", pageOf "Total"]⟩ (by decide) (by decide)

/-- C4: when rendering the text of a page fails and the locator reaches that
page (every earlier page renders and none of them ends the scan by matching
both markers), `parse` returns that error and the callback is never called. -/
theorem parse_render_error (table : TableDef) (pre post : List Page) (p : Page) (e : Error)
    (hpre : ∀ q ∈ pre, q.renders = true ∧
      ¬(q.textMatches table.StartRegex = true ∧ q.textMatches table.EndRegex = true))
    (hp : p.plainText = .error e) :
    (table.parse ⟨pre ++ p :: post⟩).outcome = .returned (some e) ∧
    (table.parse ⟨pre ++ p :: post⟩).calls = [] := by
  have h : table.getRelevantPages ⟨pre ++ p :: post⟩ = .error e := by
    obtain ⟨acc1, hacc⟩ := getRelevantPagesLoop_pass_all table pre (p :: post) [] hpre
    rw [TableDef.getRelevantPages, hacc]
    simp [getRelevantPagesLoop, hp]
  constructor <;> simp [TableDef.parse, h, ParseResult.calls]

/-- Witness of C4: the table starts on page 1, with rows on it, and page 2 fails
to render. -/
theorem parse_render_error_witness :
    (exampleTable.parse
      ⟨[{ examplePage with plainText := .ok "Statement Name Amount Alice 42" }] ++
        ⟨.error "unreadable page", [], []⟩ :: [pageOf "Total"]⟩).outcome =
      .returned (some "unreadable page") ∧
    (exampleTable.parse
      ⟨[{ examplePage with plainText := .ok "Statement Name Amount Alice 42" }] ++
        ⟨.error "unreadable page", [], []⟩ :: [pageOf "Total"]⟩).calls = [] :=
  parse_render_error exampleTable
    [{ examplePage with plainText := .ok "Statement Name Amount Alice 42" }] [pageOf "Total"]
    ⟨.error "unreadable page", [], []⟩ "unreadable page" (by decide) rfl

/-! ## Column classification (C5) -/

theorem mapFind_mapSet_self (k : Nat) (v : String) (m : List (Nat × String)) :
    mapFind k (mapSet k v m) = some v := by
  induction m with
  | nil => simp [mapSet, mapFind]
  | cons p rest ih =>
    obtain ⟨k1, v1⟩ := p
    by_cases h : k1 = k
    · simp [mapSet, mapFind, h]
    · simp [mapSet, mapFind, h, ih]

theorem mapFind_mapSet_ne (j k : Nat) (v : String) (m : List (Nat × String)) (h : j ≠ k) :
    mapFind j (mapSet k v m) = mapFind j m := by
  induction m with
  | nil => simp [mapSet, mapFind, Ne.symm h]
  | cons p rest ih =>
    obtain ⟨k1, v1⟩ := p
    by_cases h1 : k1 = k
    · have h2 : ¬ k = j := fun e => h e.symm
      have h3 : ¬ k1 = j := fun e => h (e.symm.trans h1)
      simp [mapSet, mapFind, h1, h2]
    · by_cases h2 : k1 = j
      · subst h2
        simp [mapSet, mapFind, h1]
      · simp [mapSet, mapFind, h1, h2, ih]

/-- The test of the classification loop is the tolerance test: in exact
arithmetic the equality disjunct is subsumed. -/
theorem anchor_test_iff (X x : Coord) : (X = x ∨ |X - x| ≤ 1) ↔ |X - x| ≤ 1 := by
  constructor
  · rintro (h | h)
    · rw [h, sub_self, abs_zero]; exact zero_le_one
    · exact h
  · exact Or.inr

/-- The state after a fragment has been stored in column `i`: the current row
is first closed and renewed if it is full. -/
theorem classifyFrom_match (count : Nat) (text : RectText) (cols : List ColumnDef)
    (i0 : Nat) (st : RowState) (i : Nat) (ci : ColumnDef)
    (hi : cols[i]? = some ci) (hm : |text.Rect.Min.X - ci.x| ≤ 1)
    (hfirst : ∀ (j : Nat) (cj : ColumnDef), j < i → cols[j]? = some cj → ¬ |text.Rect.Min.X - cj.x| ≤ 1) :
    classifyFrom count text cols i0 st =
      ⟨if st.currentRow.cellCount = count then closeRow st.rows st.currentRow else st.rows,
        (if st.currentRow.cellCount = count then newRow else st.currentRow).addCell
          (TrimSpace text.S) (i0 + i)⟩ := by
  induction cols generalizing i0 i with
  | nil => simp at hi
  | cons c cs ih =>
    cases i with
    | zero =>
      simp only [List.getElem?_cons_zero, Option.some.injEq] at hi
      subst hi
      have hcond : text.Rect.Min.X = c.x ∨ |text.Rect.Min.X - c.x| ≤ 1 := Or.inr hm
      simp only [classifyFrom, Nat.add_zero]
      rw [if_pos hcond]
      split_ifs <;> rfl
    | succ n =>
      have h0 : ¬ |text.Rect.Min.X - c.x| ≤ 1 := hfirst 0 c (Nat.succ_pos n) (by simp)
      have hcond : ¬(text.Rect.Min.X = c.x ∨ |text.Rect.Min.X - c.x| ≤ 1) :=
        fun h => h0 ((anchor_test_iff _ _).1 h)
      simp only [List.getElem?_cons_succ] at hi
      simp only [classifyFrom]
      rw [if_neg hcond]
      rw [ih (i0 + 1) n hi (fun j cj hj hc => hfirst (j + 1) cj (Nat.succ_lt_succ hj) (by simpa using hc))]
      have : i0 + 1 + n = i0 + (n + 1) := by omega
      rw [this]

theorem classifyFrom_none (count : Nat) (text : RectText) (cols : List ColumnDef)
    (i0 : Nat) (st : RowState)
    (h : ∀ (j : Nat) (cj : ColumnDef), cols[j]? = some cj → ¬ |text.Rect.Min.X - cj.x| ≤ 1) :
    classifyFrom count text cols i0 st = st := by
  induction cols generalizing i0 with
  | nil => rfl
  | cons c cs ih =>
    have hcond : ¬(text.Rect.Min.X = c.x ∨ |text.Rect.Min.X - c.x| ≤ 1) :=
      fun h1 => h 0 c (by simp) ((anchor_test_iff _ _).1 h1)
    simp only [classifyFrom]
    rw [if_neg hcond]
    exact ih (i0 + 1) (fun j cj hc => h (j + 1) cj (by simpa using hc))

/-! ## Row emission (C6, C7) -/

/-- C7 (the code at the failing input): a row holding only a cell for column 1
(`Amount`) is handed to the callback as the one-element sequence `[""]`: there
is no element at position 1 and the text `49` stored for column 1 is lost. -/
theorem parse_sparse_row_cells :
    (exampleTable.parse ⟨[amountOnlyPage]⟩).rows = [⟨[(1, "49")]⟩] ∧
    (exampleTable.parse ⟨[amountOnlyPage]⟩).calls = [[""]] := by
  decide!

/-! ## Header binding and the filter loop (C8, C9, C10) -/

theorem getColumnFrom_congr (header : String) (cols cols1 : List ColumnDef) (i : Nat)
    (h : cols1.map ColumnDef.Header = cols.map ColumnDef.Header) :
    getColumnFrom header cols1 i = getColumnFrom header cols i := by
  induction cols generalizing cols1 i with
  | nil =>
    cases cols1 with
    | nil => rfl
    | cons c cs => simp at h
  | cons d ds ih =>
    cases cols1 with
    | nil => simp at h
    | cons c cs =>
      simp only [List.map_cons, List.cons.injEq] at h
      simp only [getColumnFrom, h.1, ih cs (i + 1) h.2]

theorem any_header_congr (s : String) (cols cols1 : List ColumnDef)
    (h : cols1.map ColumnDef.Header = cols.map ColumnDef.Header) :
    cols1.any (fun c => c.Header s) = cols.any (fun c => c.Header s) := by
  have e : ∀ l : List ColumnDef,
      l.any (fun c => c.Header s) = (l.map ColumnDef.Header).any (fun f => f s) := by
    intro l
    induction l with
    | nil => rfl
    | cons c cs ih => simp [ih]
  rw [e, e, h]

theorem map_Header_setColumnX (cols : List ColumnDef) (k : Nat) (v : Coord) :
    (setColumnX cols k v).map ColumnDef.Header = cols.map ColumnDef.Header := by
  induction cols generalizing k with
  | nil => rfl
  | cons c cs ih =>
    cases k with
    | zero => rfl
    | succ n => simp [setColumnX, ih]

theorem getElem?_setColumnX_ne (cols : List ColumnDef) (k j : Nat) (v : Coord) (h : j ≠ k) :
    (setColumnX cols k v)[j]? = cols[j]? := by
  induction cols generalizing k j with
  | nil => rfl
  | cons c cs ih =>
    cases k with
    | zero =>
      cases j with
      | zero => exact absurd rfl h
      | succ m => simp [setColumnX]
    | succ n =>
      cases j with
      | zero => simp [setColumnX]
      | succ m =>
        simp only [setColumnX, List.getElem?_cons_succ]
        exact ih n m (fun e => h (by rw [e]))

/-- When some header matches, `getColumn` finds a column: the pointer is not nil. -/
theorem getColumnFrom_isSome (header : String) (cols : List ColumnDef) (i : Nat)
    (h : cols.any (fun c => c.Header header) = true) :
    ∃ k, getColumnFrom header cols i = some k := by
  induction cols generalizing i with
  | nil => simp at h
  | cons c cs ih =>
    by_cases hc : c.Header header = true
    · exact ⟨i, by simp [getColumnFrom, hc]⟩
    · have hc1 : c.Header header = false := by simpa using hc
      simp only [List.any_cons, hc1, Bool.false_or] at h
      obtain ⟨k, hk⟩ := ih (i + 1) h
      exact ⟨k, by simp [getColumnFrom, hc, hk]⟩

/-- The filter loop never dereferences a nil column; it keeps, in order, the
fragments that are neither skipped nor headers, leaves the header matchers as
they are, and leaves the anchor of every column that no surviving fragment
binds as it is. -/
theorem filterLoop_eq (i count : Int) (texts : List RectText) (table : TableDef)
    (acc : List RectText) :
    ∃ cols1, filterLoop i count table texts acc =
        (⟨table.StartRegex, table.EndRegex, cols1, table.startPoint, table.endPoint⟩,
          some (acc ++ texts.filter
            (fun t => !skipText table i count t && !table.isColumnHeader t.S))) ∧
      cols1.map ColumnDef.Header = table.Columns.map ColumnDef.Header ∧
      ∀ k, (∀ t ∈ texts, skipText table i count t = false →
        table.getColumn (TrimSpace t.S) ≠ some k) → cols1[k]? = table.Columns[k]? := by
  induction texts generalizing table acc with
  | nil => exact ⟨table.Columns, by simp [filterLoop], rfl, fun _ _ => rfl⟩
  | cons t ts ih =>
    by_cases hskip : skipText table i count t = true
    · obtain ⟨cols1, h1, h2, h3⟩ := ih table acc
      refine ⟨cols1, ?_, h2, fun k hk => h3 k (fun u hu => hk u (List.mem_cons_of_mem _ hu))⟩
      simp only [filterLoop, hskip, if_true, h1]
      simp [hskip]
    · have hskip1 : skipText table i count t = false := by simpa using hskip
      by_cases hhead : table.isColumnHeader t.S = true
      · obtain ⟨k0, hk0⟩ := getColumnFrom_isSome (TrimSpace t.S) table.Columns 0 hhead
        let table1 : TableDef :=
          { table with Columns := setColumnX table.Columns k0 t.Rect.Min.X }
        have hH : table1.Columns.map ColumnDef.Header = table.Columns.map ColumnDef.Header :=
          map_Header_setColumnX _ _ _
        have hsk : ∀ u, skipText table1 i count u = skipText table i count u := fun _ => rfl
        have hih : ∀ s, table1.isColumnHeader s = table.isColumnHeader s :=
          fun s => any_header_congr _ _ _ hH
        have hgc : ∀ s, table1.getColumn s = table.getColumn s :=
          fun s => getColumnFrom_congr _ _ _ _ hH
        obtain ⟨cols1, h1, h2, h3⟩ := ih table1 acc
        refine ⟨cols1, ?_, h2.trans hH, ?_⟩
        · simp only [filterLoop, hskip1, hhead, if_true, TableDef.getColumn, hk0]
          rw [h1]
          simp [hskip1, hhead, hsk, hih, table1]
        · intro k hk
          have hne : k ≠ k0 := fun e =>
            hk t (List.mem_cons_self _ _) hskip1 (by rw [e]; exact hk0)
          rw [h3 k (fun u hu hu1 => by
            rw [hgc]
            exact hk u (List.mem_cons_of_mem _ hu) ((hsk u).symm.trans hu1))]
          exact getElem?_setColumnX_ne _ _ _ _ hne
      · have hhead1 : table.isColumnHeader t.S = false := by simpa using hhead
        obtain ⟨cols1, h1, h2, h3⟩ := ih table (acc ++ [t])
        refine ⟨cols1, ?_, h2,
          fun k hk => h3 k (fun u hu => hk u (List.mem_cons_of_mem _ hu))⟩
        simp only [filterLoop, hskip1, hhead1, h1]
        simp [hskip1, hhead1]

theorem mem_closeRow {rows : List tableRow} {cur r : tableRow} (h : r ∈ closeRow rows cur) :
    r ∈ rows ∨ r = cur := by
  unfold closeRow at h
  split_ifs at h
  · simpa using h
  · exact Or.inl h

/-- One classification step either drops the fragment or stores it under a
column whose anchor is within 1 of its `Rect.Min.X`. -/
theorem classifyFrom_cases (count : Nat) (text : RectText) (cols : List ColumnDef) (i0 : Nat)
    (st : RowState) :
    classifyFrom count text cols i0 st = st ∨
    ∃ (i : Nat) (ci : ColumnDef), cols[i]? = some ci ∧ |text.Rect.Min.X - ci.x| ≤ 1 ∧
      classifyFrom count text cols i0 st =
        ⟨if st.currentRow.cellCount = count then closeRow st.rows st.currentRow else st.rows,
          (if st.currentRow.cellCount = count then newRow else st.currentRow).addCell
            (TrimSpace text.S) (i0 + i)⟩ := by
  by_cases h : ∃ (i : Nat) (ci : ColumnDef), cols[i]? = some ci ∧ |text.Rect.Min.X - ci.x| ≤ 1
  · right
    classical
    let P : Nat → Prop := fun i => ∃ ci : ColumnDef, cols[i]? = some ci ∧
      |text.Rect.Min.X - ci.x| ≤ 1
    have hP : ∃ i, P i := h
    obtain ⟨ci, hci, hm⟩ := Nat.find_spec hP
    refine ⟨Nat.find hP, ci, hci, hm, classifyFrom_match count text cols i0 st _ ci hci hm ?_⟩
    intro j cj hj hcj hmj
    exact Nat.find_min hP hj ⟨cj, hcj, hmj⟩
  · left
    exact classifyFrom_none count text cols i0 st (fun j cj hcj hmj => h ⟨j, cj, hcj, hmj⟩)

theorem CellsAt_classify (columns : List ColumnDef) (k : Nat) (ck : ColumnDef)
    (hk : columns[k]? = some ck) (P : String → Prop) (st : RowState) (text : RectText)
    (hP : |text.Rect.Min.X - ck.x| ≤ 1 → P (TrimSpace text.S)) (hst : CellsAt k P st) :
    CellsAt k P (classify columns st text) := by
  unfold classify
  rcases classifyFrom_cases columns.length text columns 0 st with h | ⟨i, ci, hi, hm, h⟩
  · rw [h]; exact hst
  · rw [h, Nat.zero_add]
    obtain ⟨hrows, hcur⟩ := hst
    constructor
    · intro r hr v hv
      split_ifs at hr
      · rcases mem_closeRow hr with hr1 | rfl
        · exact hrows r hr1 v hv
        · exact hcur v hv
      · exact hrows r hr v hv
    · intro v hv
      simp only [tableRow.addCell] at hv
      by_cases hki : k = i
      · subst hki
        rw [mapFind_mapSet_self] at hv
        rw [hk] at hi
        cases hi
        cases hv
        exact hP hm
      · rw [mapFind_mapSet_ne _ _ _ _ hki] at hv
        split_ifs at hv
        · simp [newRow, mapFind] at hv
        · exact hcur v hv

/-- Every cell under index `k` of a row assembled from `pageTexts` is the
trimmed text of one of these fragments, lying within 1 of the anchor of
column `k`. -/
theorem assembleRows_cell_origin (columns : List ColumnDef) (k : Nat) (ck : ColumnDef)
    (hk : columns[k]? = some ck) (pageTexts : List RectText) :
    ∀ r ∈ assembleRows columns pageTexts, ∀ v, mapFind k r.cellByCol = some v →
      ∃ t ∈ pageTexts, |t.Rect.Min.X - ck.x| ≤ 1 ∧ v = TrimSpace t.S := by
  have key : ∀ (ts : List RectText) (st : RowState),
      (∀ t ∈ ts, t ∈ pageTexts) →
      CellsAt k (fun v => ∃ t ∈ pageTexts, |t.Rect.Min.X - ck.x| ≤ 1 ∧ v = TrimSpace t.S) st →
      CellsAt k (fun v => ∃ t ∈ pageTexts, |t.Rect.Min.X - ck.x| ≤ 1 ∧ v = TrimSpace t.S)
        (ts.foldl (classify columns) st) := by
    intro ts
    induction ts with
    | nil => intro st _ h; exact h
    | cons t ts ih =>
      intro st hmem h
      simp only [List.foldl_cons]
      refine ih _ (fun u hu => hmem u (List.mem_cons_of_mem _ hu)) ?_
      exact CellsAt_classify columns k ck hk _ st t
        (fun hm => ⟨t, hmem t (List.mem_cons_self _ _), hm, rfl⟩) h
  have h0 := key pageTexts ⟨[], newRow⟩ (fun t ht => ht)
    ⟨fun r hr => by simp at hr, fun v hv => by simp [newRow, mapFind] at hv⟩
  intro r hr v hv
  unfold assembleRows at hr
  rcases mem_closeRow hr with h1 | rfl
  · exact h0.1 r h1 v hv
  · exact h0.2 v hv

/-- The page body of `parse` in terms of the fragments kept by the filter loop. -/
theorem parsePage_eq (table : TableDef) (i count : Int) (page : Page) :
    ∃ cols1, parsePage table i count page =
        (⟨table.StartRegex, table.EndRegex, cols1, (runObserver table page).startPoint,
            (runObserver table page).endPoint⟩,
          some (assembleRows cols1 (page.texts.filter (fun t =>
            !skipText (runObserver table page) i count t && !table.isColumnHeader t.S)))) ∧
      cols1.map ColumnDef.Header = table.Columns.map ColumnDef.Header ∧
      ∀ k, (∀ t ∈ page.texts, skipText (runObserver table page) i count t = false →
        table.getColumn (TrimSpace t.S) ≠ some k) → cols1[k]? = table.Columns[k]? := by
  obtain ⟨hc, hs, he⟩ := foldl_observer_fields page.observerCalls table
  obtain ⟨cols1, h1, h2, h3⟩ := filterLoop_eq i count page.texts (runObserver table page) []
  have hhead : ∀ s, (runObserver table page).isColumnHeader s = table.isColumnHeader s := by
    intro s
    unfold TableDef.isColumnHeader
    rw [runObserver_Columns]
  have hget : ∀ s, (runObserver table page).getColumn s = table.getColumn s := by
    intro s
    unfold TableDef.getColumn
    rw [runObserver_Columns]
  refine ⟨cols1, ?_, by rw [h2, runObserver_Columns], ?_⟩
  · unfold parsePage
    rw [h1]
    simp only [List.nil_append, hhead]
    unfold runObserver
    rw [hs, he]
  · intro k hk
    rw [h3 k (fun t ht hsk => by rw [hget]; exact hk t ht hsk), runObserver_Columns]

/-- C8 (as amended): on a page of `parse` where the anchor of column `k` is 0 on
entry (as in a freshly constructed definition) and no surviving fragment's
trimmed text binds column `k`, the page is processed, the anchor of column `k`
is still 0 afterwards, and every cell held at index `k` by a row of the page is
the trimmed text of a surviving fragment whose `Rect.Min.X` is within 1 of 0. -/
theorem unbound_column_cells (table : TableDef) (i count : Int) (page : Page) (k : Nat)
    (ck : ColumnDef) (hk : table.Columns[k]? = some ck) (hx : ck.x = 0)
    (hnb : ∀ t ∈ page.texts, skipText (runObserver table page) i count t = false →
      table.getColumn (TrimSpace t.S) ≠ some k) :
    ∃ table1 rows, parsePage table i count page = (table1, some rows) ∧
      table1.Columns[k]? = some ck ∧
      ∀ r ∈ rows, ∀ v, mapFind k r.cellByCol = some v →
        ∃ t ∈ page.texts, skipText (runObserver table page) i count t = false ∧
          |t.Rect.Min.X| ≤ 1 ∧ v = TrimSpace t.S := by
  obtain ⟨cols1, h1, -, h3⟩ := parsePage_eq table i count page
  have hk1 : cols1[k]? = some ck := (h3 k hnb).trans hk
  refine ⟨_, _, h1, hk1, ?_⟩
  intro r hr v hv
  obtain ⟨t, ht, hm, hv1⟩ := assembleRows_cell_origin cols1 k ck hk1 _ r hr v hv
  rw [hx, sub_zero] at hm
  simp only [List.mem_filter, Bool.and_eq_true, Bool.not_eq_true'] at ht
  exact ⟨t, ht.1, ht.2.1, hm, hv1⟩

/-- Witness of C8 (as amended): the page on which `Amount` is never bound. -/
theorem unbound_column_cells_witness :
    ∃ table1 rows, parsePage exampleTable 0 1 strayPage = (table1, some rows) ∧
      table1.Columns[1]? = some (NewColumnDef (matchExact "Amount")) ∧
      ∀ r ∈ rows, ∀ v, mapFind 1 r.cellByCol = some v →
        ∃ t ∈ strayPage.texts, skipText (runObserver exampleTable strayPage) 0 1 t = false ∧
          |t.Rect.Min.X| ≤ 1 ∧ v = TrimSpace t.S :=
  unbound_column_cells exampleTable 0 1 strayPage 1 (NewColumnDef (matchExact "Amount"))
    rfl rfl (by decide!)

/-- C8 (counterexample): with a freshly constructed table and a page on which no
fragment's trimmed text binds column 1 (`Amount`), the fragment `stray` at
`X = 1/2` is classified into column 1: the row built holds a cell at index 1. -/
theorem unbound_column_receives_fragment :
    (∀ c ∈ exampleTable.Columns, c.x = 0) ∧
    (∀ t ∈ strayPage.texts, exampleTable.getColumn (TrimSpace t.S) ≠ some 1) ∧
    (exampleTable.parse ⟨[strayPage]⟩).rows = [⟨[(0, "Alice"), (1, "stray")]⟩] ∧
    (exampleTable.parse ⟨[strayPage]⟩).calls = [["Alice", "stray"]] := by
  refine ⟨?_, ?_, ?_, ?_⟩ <;> decide!

/-- The `continue` condition of the filter loop, as a proposition. -/
theorem skipText_eq_false_iff (table : TableDef) (i count : Int) (t : RectText) :
    skipText table i count t = false ↔
      (t.S ≠ "" ∧ ¬(i = 0 ∧ t.Rect.Min.Y > table.startPoint.Y) ∧
        ¬(i = count - 1 ∧ t.Rect.Max.Y < table.endPoint.Y)) := by
  unfold skipText
  simp only [Bool.or_eq_false_iff, Bool.and_eq_false_iff, beq_eq_false_iff_ne, ne_eq,
    decide_eq_false_iff_not, not_and, imp_iff_not_or, and_assoc]

/-- The fragments handed to the row assembly: those passing the filter that are
not column headers, in order. -/
theorem filter_spec_aux (table : TableDef) (i count : Int) (page : Page) :
    ∃ table1, filterLoop i count (runObserver table page) page.texts [] =
      (table1, some (page.texts.filter (fun t =>
        decide (t.S ≠ "" ∧ ¬(i = 0 ∧ t.Rect.Min.Y > (runObserver table page).startPoint.Y) ∧
          ¬(i = count - 1 ∧ t.Rect.Max.Y < (runObserver table page).endPoint.Y)) &&
        !table.isColumnHeader t.S))) := by
  obtain ⟨cols1, h1, -, -⟩ := filterLoop_eq i count page.texts (runObserver table page) []
  refine ⟨⟨(runObserver table page).StartRegex, (runObserver table page).EndRegex, cols1,
    (runObserver table page).startPoint, (runObserver table page).endPoint⟩, ?_⟩
  rw [h1, List.nil_append]
  congr 2
  apply List.filter_congr
  intro t _
  have hh : (runObserver table page).isColumnHeader t.S = table.isColumnHeader t.S := by
    unfold TableDef.isColumnHeader
    rw [runObserver_Columns]
  rw [hh]
  congr 1
  cases hsk : skipText (runObserver table page) i count t with
  | false =>
    have := (skipText_eq_false_iff _ i count t).1 hsk
    simp only [Bool.not_false]
    exact (decide_eq_true this).symm
  | true =>
    have : ¬(t.S ≠ "" ∧ ¬(i = 0 ∧ t.Rect.Min.Y > (runObserver table page).startPoint.Y) ∧
        ¬(i = count - 1 ∧ t.Rect.Max.Y < (runObserver table page).endPoint.Y)) := by
      intro h
      rw [(skipText_eq_false_iff _ i count t).2 h] at hsk
      exact absurd hsk (by simp)
    simp only [Bool.not_true]
    exact (decide_eq_false this).symm

/-- C9: on the located page with index `i` of `count`, with the coordinates held
after the fragment extraction of the page, a fragment passes the filter exactly
when its text is non-empty and not (`i = 0` and `Rect.Min.Y` above the start
coordinate) and not (`i = count - 1` and `Rect.Max.Y` below the end coordinate);
an empty fragment is dropped at every position, on an interior page every
non-empty fragment passes, and the fragments handed to the row assembly are, in
order, the passing fragments that are not column headers. -/
theorem filter_spec (table : TableDef) (i count : Int) (page : Page) :
    (∀ t, skipText (runObserver table page) i count t = false ↔
      (t.S ≠ "" ∧ ¬(i = 0 ∧ t.Rect.Min.Y > (runObserver table page).startPoint.Y) ∧
        ¬(i = count - 1 ∧ t.Rect.Max.Y < (runObserver table page).endPoint.Y))) ∧
    (∀ t, t.S = "" → skipText (runObserver table page) i count t = true) ∧
    (0 < i → i < count - 1 → ∀ t, t.S ≠ "" →
      skipText (runObserver table page) i count t = false) ∧
    ∃ table1, filterLoop i count (runObserver table page) page.texts [] =
      (table1, some (page.texts.filter (fun t =>
        decide (t.S ≠ "" ∧ ¬(i = 0 ∧ t.Rect.Min.Y > (runObserver table page).startPoint.Y) ∧
          ¬(i = count - 1 ∧ t.Rect.Max.Y < (runObserver table page).endPoint.Y)) &&
        !table.isColumnHeader t.S))) := by
  refine ⟨fun t => skipText_eq_false_iff _ i count t, ?_, ?_, ?_⟩
  · intro t ht
    simp [skipText, ht]
  · intro h0 h1 t ht
    rw [skipText_eq_false_iff]
    exact ⟨ht, fun h => absurd h.1 (ne_of_gt h0), fun h => absurd h.1 (ne_of_lt h1)⟩
  · exact filter_spec_aux table i count page

/-- Witness of C9: on the interior page 1 of 3 a fragment far above the start
mark passes. -/
theorem filter_spec_witness :
    skipText (runObserver exampleTable interiorPage) 1 3 (fragment "Carol" 10 900) = false :=
  (filter_spec exampleTable 1 3 interiorPage).2.2.1 (by decide) (by decide)
    (fragment "Carol" 10 900) (by decide)

/-- C10: when the first page matching the start marker also matches the end
marker, `getRelevantPages` returns that page alone, `parse` runs its page loop
once with index 0 of 1, so that a non-empty fragment is filtered out exactly
when `Rect.Min.Y` is above the start coordinate or `Rect.Max.Y` is below the end
coordinate, and the rows handed to the callback are those assembled from the
fragments passing this filter that are not column headers. -/
theorem parse_single_page (table : TableDef) (pre post : List Page) (p : Page)
    (hr : ∀ q ∈ pre, q.renders = true)
    (hpre : ∀ q ∈ pre, q.textMatches table.StartRegex = false)
    (hs : p.textMatches table.StartRegex = true) (he : p.textMatches table.EndRegex = true) :
    table.getRelevantPages ⟨pre ++ p :: post⟩ = .ok [p] ∧
    table.parse ⟨pre ++ p :: post⟩ = parseLoop 1 [p] 0 table [] ∧
    (∀ t, t.S ≠ "" → (skipText (runObserver table p) 0 1 t = true ↔
      (t.Rect.Min.Y > (runObserver table p).startPoint.Y ∨
        t.Rect.Max.Y < (runObserver table p).endPoint.Y))) ∧
    (table.parse ⟨pre ++ p :: post⟩).rows =
      assembleRows (filterLoop 0 1 (runObserver table p) p.texts []).1.Columns
        (p.texts.filter (fun t =>
          decide (t.S ≠ "" ∧ ¬(t.Rect.Min.Y > (runObserver table p).startPoint.Y ∨
            t.Rect.Max.Y < (runObserver table p).endPoint.Y)) &&
          !table.isColumnHeader t.S)) ∧
    (table.parse ⟨pre ++ p :: post⟩).outcome = .returned none := by
  have hloc : table.getRelevantPages ⟨pre ++ p :: post⟩ = .ok [p] := by
    unfold TableDef.getRelevantPages
    rw [getRelevantPagesLoop_skip_all table pre _ [] hr hpre,
      getRelevantPagesLoop_stop table p post [] hs he]
    rfl
  have hparse : table.parse ⟨pre ++ p :: post⟩ = parseLoop 1 [p] 0 table [] := by
    simp [TableDef.parse, hloc]
  have hskip : ∀ t, t.S ≠ "" → (skipText (runObserver table p) 0 1 t = true ↔
      (t.Rect.Min.Y > (runObserver table p).startPoint.Y ∨
        t.Rect.Max.Y < (runObserver table p).endPoint.Y)) := by
    intro t ht
    simp [skipText, ht]
  obtain ⟨table1, hf⟩ := (filter_spec_aux table 0 1 p)
  refine ⟨hloc, hparse, hskip, ?_, ?_⟩
  · rw [hparse]
    simp only [parseLoop, parsePage, hf, List.nil_append]
    congr 1
    apply List.filter_congr
    intro t _
    congr 2
    simp
  · rw [hparse]
    simp only [parseLoop, parsePage, hf]

/-- Witness of C10: the example page between a cover page and an appendix. -/
theorem parse_single_page_witness :
    exampleTable.getRelevantPages ⟨[pageOf "Cover"] ++ examplePage :: [pageOf "Appendix"]⟩ =
      .ok [examplePage] :=
  (parse_single_page exampleTable [pageOf "Cover"] [pageOf "Appendix"] examplePage
    (by decide) (by decide) (by decide) (by decide)).1

/-! ## The locator stops at the end of the table (C12) -/

theorem getRelevantPagesLoop_rest_irrelevant (table : TableDef) (pre post post1 : List Page)
    (p : Page) (acc : List Page)
    (hs : p.textMatches table.StartRegex = true) (he : p.textMatches table.EndRegex = true) :
    getRelevantPagesLoop table (pre ++ p :: post) acc =
      getRelevantPagesLoop table (pre ++ p :: post1) acc := by
  induction pre generalizing acc with
  | nil =>
    simp only [List.nil_append]
    rw [getRelevantPagesLoop_stop table p post acc hs he,
      getRelevantPagesLoop_stop table p post1 acc hs he]
  | cons q qs ih =>
    simp only [List.cons_append, getRelevantPagesLoop]
    split
    · rfl
    · split_ifs
      · exact ih acc
      · rfl
      · exact ih _

/-- C12: when a page matches both markers, the result of `getRelevantPages` (page
list and error outcome) is the same for every choice of the pages that follow
it: those pages are neither rendered nor included. -/
theorem getRelevantPages_stops (table : TableDef) (pre post post1 : List Page) (p : Page)
    (hs : p.textMatches table.StartRegex = true) (he : p.textMatches table.EndRegex = true) :
    table.getRelevantPages ⟨pre ++ p :: post⟩ = table.getRelevantPages ⟨pre ++ p :: post1⟩ :=
  getRelevantPagesLoop_rest_irrelevant table pre post post1 p [] hs he

/-- Witness of C12: an unreadable page and a further start page after the end
of the table change nothing. -/
theorem getRelevantPages_stops_witness :
    exampleTable.getRelevantPages
      ⟨[pageOf "Cover"] ++ pageOf "Statement Total" :: [unreadablePage, pageOf "Statement"]⟩ =
    exampleTable.getRelevantPages ⟨[pageOf "Cover"] ++ pageOf "Statement Total" :: []⟩ :=
  getRelevantPages_stops exampleTable [pageOf "Cover"] [unreadablePage, pageOf "Statement"] []
    (pageOf "Statement Total") (by decide) (by decide)

/-! ## The row builder (C13) -/

theorem mapFind_eq_none_iff (k : Nat) (m : List (Nat × String)) :
    mapFind k m = none ↔ k ∉ m.map Prod.fst := by
  induction m with
  | nil => simp [mapFind]
  | cons p rest ih =>
    obtain ⟨k1, v1⟩ := p
    by_cases h : k1 = k
    · simp [mapFind, h]
    · have h1 : ¬ k = k1 := fun e => h e.symm
      simp [mapFind, h, h1, ih]

/-- The keys after `m[k] = v`: unchanged when `k` is present, `k` added last
otherwise. -/
theorem keys_mapSet (k : Nat) (v : String) (m : List (Nat × String)) :
    (mapSet k v m).map Prod.fst =
      if k ∈ m.map Prod.fst then m.map Prod.fst else m.map Prod.fst ++ [k] := by
  induction m with
  | nil => simp [mapSet]
  | cons p rest ih =>
    obtain ⟨k1, v1⟩ := p
    by_cases h : k1 = k
    · subst h
      simp [mapSet]
    · have h1 : ¬ k = k1 := fun e => h e.symm
      simp only [mapSet, h, if_false, List.map_cons, ih, List.mem_cons, h1, false_or]
      split_ifs <;> simp

theorem length_mapSet (k : Nat) (v : String) (m : List (Nat × String)) :
    (mapSet k v m).length =
      if k ∈ m.map Prod.fst then m.length else m.length + 1 := by
  have h := congrArg List.length (keys_mapSet k v m)
  rw [List.length_map] at h
  rw [h]
  split_ifs <;> simp

theorem nodup_keys_mapSet (k : Nat) (v : String) (m : List (Nat × String))
    (h : (m.map Prod.fst).Nodup) : ((mapSet k v m).map Prod.fst).Nodup := by
  rw [keys_mapSet]
  split_ifs with hk
  · exact h
  · exact List.Nodup.append h (List.nodup_singleton k) (by simpa using hk)

/-- The keys of a row built from `newRow` by a sequence of `addCell` calls are
distinct and are the indices written. -/
theorem keys_foldl_addCell (writes : List (String × Nat)) (r : tableRow)
    (hr : (r.cellByCol.map Prod.fst).Nodup) :
    ((writes.foldl (fun row w => row.addCell w.1 w.2) r).cellByCol.map Prod.fst).Nodup ∧
    ((writes.foldl (fun row w => row.addCell w.1 w.2) r).cellByCol.map Prod.fst).toFinset =
      (r.cellByCol.map Prod.fst).toFinset ∪ (writes.map Prod.snd).toFinset := by
  induction writes generalizing r with
  | nil => simp [hr]
  | cons w ws ih =>
    simp only [List.foldl_cons]
    obtain ⟨h1, h2⟩ := ih (r.addCell w.1 w.2) (nodup_keys_mapSet _ _ _ hr)
    refine ⟨h1, ?_⟩
    rw [h2]
    simp only [tableRow.addCell, keys_mapSet]
    ext x
    split_ifs with hk <;> simp only [List.map_cons, List.toFinset_cons, List.toFinset_append,
      Finset.mem_union, Finset.mem_insert, List.mem_toFinset, List.toFinset_nil,
      insert_emptyc_eq, Finset.mem_singleton]
    · constructor
      · rintro (h | h)
        · exact Or.inl h
        · exact Or.inr (Or.inr h)
      · rintro (h | h | h)
        · exact Or.inl h
        · exact Or.inl (h ▸ hk)
        · exact Or.inr h
    · tauto

/-- C13: after `addCell(c, k)` the row holds `c` at index `k`, the cell at every
other index is unchanged, `cellCount` is unchanged when index `k` was already
held and larger by one otherwise; and the `cellCount` of a row built from
`newRow` is the number of distinct indices written. -/
theorem addCell_spec (r : tableRow) (c : String) (k : Nat) :
    mapFind k (r.addCell c k).cellByCol = some c ∧
    (∀ j, j ≠ k → mapFind j (r.addCell c k).cellByCol = mapFind j r.cellByCol) ∧
    (mapFind k r.cellByCol ≠ none → (r.addCell c k).cellCount = r.cellCount) ∧
    (mapFind k r.cellByCol = none → (r.addCell c k).cellCount = r.cellCount + 1) ∧
    ∀ writes : List (String × Nat),
      (writes.foldl (fun row w => row.addCell w.1 w.2) newRow).cellCount =
        (writes.map Prod.snd).toFinset.card := by
  refine ⟨mapFind_mapSet_self _ _ _, fun j hj => mapFind_mapSet_ne _ _ _ _ hj, ?_, ?_, ?_⟩
  · intro h
    rw [Ne, mapFind_eq_none_iff, not_not] at h
    simp [tableRow.addCell, tableRow.cellCount, length_mapSet, h]
  · intro h
    rw [mapFind_eq_none_iff] at h
    simp [tableRow.addCell, tableRow.cellCount, length_mapSet, h]
  · intro writes
    obtain ⟨h1, h2⟩ := keys_foldl_addCell writes newRow (by simp [newRow])
    have h3 := List.toFinset_card_of_nodup h1
    rw [h2, List.length_map] at h3
    simp only [newRow, List.map_nil, List.toFinset_nil, Finset.empty_union] at h3
    exact h3.symm

/-- Witness of C13: overwriting a held index, and writing a new one. -/
theorem addCell_spec_witness :
    (tableRow.addCell ⟨[(0, "Alice"), (1, "42")]⟩ "43" 1).cellCount =
      tableRow.cellCount ⟨[(0, "Alice"), (1, "42")]⟩ ∧
    (tableRow.addCell ⟨[(0, "Alice")]⟩ "42" 1).cellCount =
      tableRow.cellCount ⟨[(0, "Alice")]⟩ + 1 :=
  ⟨(addCell_spec ⟨[(0, "Alice"), (1, "42")]⟩ "43" 1).2.2.1 (by decide),
   (addCell_spec ⟨[(0, "Alice")]⟩ "42" 1).2.2.2.1 (by decide)⟩

/-! ## The observer (C15) -/

theorem observer_endPoint_fixed (t : TableDef) (p : Point) (a : String)
    (h : t.endPoint.Y ≠ 0) : (observer t p a).endPoint = t.endPoint := by
  unfold observer
  split_ifs with h1 h2
  · exact absurd h1.1 h
  · rfl
  · rfl

theorem observer_startPoint_fixed (t : TableDef) (p : Point) (a : String)
    (h : t.startPoint.Y ≠ 0) : (observer t p a).startPoint = t.startPoint := by
  unfold observer
  split_ifs with h1 h2
  · rfl
  · exact absurd h2.1 h
  · rfl

theorem foldl_observer_endPoint_fixed (calls : List (Point × String)) (t : TableDef)
    (h : t.endPoint.Y ≠ 0) :
    (calls.foldl (fun t call => observer t call.1 call.2) t).endPoint = t.endPoint := by
  induction calls generalizing t with
  | nil => rfl
  | cons c cs ih =>
    simp only [List.foldl_cons]
    have h1 := observer_endPoint_fixed t c.1 c.2 h
    rw [ih _ (by rw [h1]; exact h), h1]

theorem foldl_observer_startPoint_fixed (calls : List (Point × String)) (t : TableDef)
    (h : t.startPoint.Y ≠ 0) :
    (calls.foldl (fun t call => observer t call.1 call.2) t).startPoint = t.startPoint := by
  induction calls generalizing t with
  | nil => rfl
  | cons c cs ih =>
    simp only [List.foldl_cons]
    have h1 := observer_startPoint_fixed t c.1 c.2 h
    rw [ih _ (by rw [h1]; exact h), h1]

/-- The coordinates after a sequence of observer calls depend only on the
coordinates and the two markers of the table. -/
theorem foldl_observer_points (calls : List (Point × String)) (t u : TableDef)
    (hs : t.startPoint = u.startPoint) (he : t.endPoint = u.endPoint)
    (hS : t.StartRegex = u.StartRegex) (hE : t.EndRegex = u.EndRegex) :
    (calls.foldl (fun t call => observer t call.1 call.2) t).startPoint =
      (calls.foldl (fun t call => observer t call.1 call.2) u).startPoint ∧
    (calls.foldl (fun t call => observer t call.1 call.2) t).endPoint =
      (calls.foldl (fun t call => observer t call.1 call.2) u).endPoint := by
  induction calls generalizing t u with
  | nil => exact ⟨hs, he⟩
  | cons c cs ih =>
    simp only [List.foldl_cons]
    obtain ⟨f1, f2, f3⟩ := observer_fields t c.1 c.2
    obtain ⟨g1, g2, g3⟩ := observer_fields u c.1 c.2
    apply ih
    · unfold observer
      rw [hs, he, hS, hE]
      split_ifs <;> first | rfl | exact hs
    · unfold observer
      rw [hs, he, hS, hE]
      split_ifs <;> first | rfl | exact he
    · rw [f2, g2, hS]
    · rw [f3, g3, hE]

/-- The page loop of `parse` never fails, and changes the two coordinates only
through the observer calls of the pages. -/
theorem parseLoop_points (count : Int) (pages : List Page) (i : Int) (table : TableDef)
    (rows : List tableRow) :
    (parseLoop count pages i table rows).outcome = .returned none ∧
    (parseLoop count pages i table rows).table.startPoint =
      ((pages.map Page.observerCalls).flatten.foldl
        (fun t call => observer t call.1 call.2) table).startPoint ∧
    (parseLoop count pages i table rows).table.endPoint =
      ((pages.map Page.observerCalls).flatten.foldl
        (fun t call => observer t call.1 call.2) table).endPoint := by
  induction pages generalizing i table rows with
  | nil => exact ⟨rfl, rfl, rfl⟩
  | cons p ps ih =>
    obtain ⟨cols1, h1, -, -⟩ := parsePage_eq table i count p
    simp only [parseLoop, h1, List.map_cons, List.flatten_cons, List.foldl_append]
    obtain ⟨g1, g2, g3⟩ := ih (i + 1)
      ⟨table.StartRegex, table.EndRegex, cols1, (runObserver table p).startPoint,
        (runObserver table p).endPoint⟩
      (rows ++ assembleRows cols1 (p.texts.filter (fun t =>
        !skipText (runObserver table p) i count t && !table.isColumnHeader t.S)))
    have hp := foldl_observer_points (ps.map Page.observerCalls).flatten
      ⟨table.StartRegex, table.EndRegex, cols1, (runObserver table p).startPoint,
        (runObserver table p).endPoint⟩ (runObserver table p) rfl rfl
      (foldl_observer_fields p.observerCalls table).2.1.symm
      (foldl_observer_fields p.observerCalls table).2.2.symm
    exact ⟨g1, g2.trans hp.1, g3.trans hp.2⟩

/-- C15: once the end coordinate holds a non-zero `Y` no sequence of later
observer calls changes it, and likewise for the start coordinate; one call
changes at most one of the two coordinates; a call whose accumulated text
matches the end marker while the end coordinate is unset (`Y = 0`) records the
end coordinate and leaves the start coordinate as it is; and over the pages of a
parse the coordinates change only through these calls, taken in page order. -/
theorem observer_spec (table : TableDef) :
    (∀ calls : List (Point × String), table.endPoint.Y ≠ 0 →
      (calls.foldl (fun t call => observer t call.1 call.2) table).endPoint =
        table.endPoint) ∧
    (∀ calls : List (Point × String), table.startPoint.Y ≠ 0 →
      (calls.foldl (fun t call => observer t call.1 call.2) table).startPoint =
        table.startPoint) ∧
    (∀ p a, (observer table p a).endPoint = table.endPoint ∨
      (observer table p a).startPoint = table.startPoint) ∧
    (∀ p a, table.endPoint.Y = 0 → table.EndRegex a = true →
      (observer table p a).endPoint = p ∧
      (observer table p a).startPoint = table.startPoint) ∧
    (∀ (count : Int) (pages : List Page) (i : Int) (rows : List tableRow),
      (parseLoop count pages i table rows).table.startPoint =
        ((pages.map Page.observerCalls).flatten.foldl
          (fun t call => observer t call.1 call.2) table).startPoint ∧
      (parseLoop count pages i table rows).table.endPoint =
        ((pages.map Page.observerCalls).flatten.foldl
          (fun t call => observer t call.1 call.2) table).endPoint) := by
  refine ⟨fun calls h => foldl_observer_endPoint_fixed calls table h,
    fun calls h => foldl_observer_startPoint_fixed calls table h, ?_, ?_,
    fun count pages i rows => (parseLoop_points count pages i table rows).2⟩
  · intro p a
    unfold observer
    split_ifs
    · exact Or.inr rfl
    · exact Or.inl rfl
    · exact Or.inl rfl
  · intro p a h0 hm
    unfold observer
    rw [if_pos ⟨h0, hm⟩]
    exact ⟨rfl, rfl⟩

/-- Witness of C15: with the end coordinate recorded at `Y = 100`, the calls of
the example page leave it there. -/
theorem observer_spec_witness :
    (exampleCalls.foldl (fun t call => observer t call.1 call.2)
      { exampleTable with endPoint := ⟨10, 100⟩ }).endPoint = ⟨10, 100⟩ :=
  (observer_spec { exampleTable with endPoint := ⟨10, 100⟩ }).1 exampleCalls (by decide!)

/-! ## Header lookup (C17) -/

/-- When some header matches, `getColumn` returns the first column, in defined
order, whose header matches. -/
theorem getColumnFrom_first (header : String) (cols : List ColumnDef) (i0 : Nat)
    (h : cols.any (fun c => c.Header header) = true) :
    ∃ (n : Nat) (ck : ColumnDef), getColumnFrom header cols i0 = some (i0 + n) ∧
      cols[n]? = some ck ∧ ck.Header header = true ∧
      ∀ (j : Nat) (cj : ColumnDef), j < n → cols[j]? = some cj → cj.Header header = false := by
  induction cols generalizing i0 with
  | nil => simp at h
  | cons c cs ih =>
    by_cases hc : c.Header header = true
    · exact ⟨0, c, by simp [getColumnFrom, hc], by simp, hc,
        fun j cj hj => absurd hj (Nat.not_lt_zero j)⟩
    · have hc1 : c.Header header = false := by simpa using hc
      simp only [List.any_cons, hc1, Bool.false_or] at h
      obtain ⟨n, ck, h1, h2, h3, h4⟩ := ih (i0 + 1) h
      refine ⟨n + 1, ck, ?_, by simpa using h2, h3, ?_⟩
      · simp only [getColumnFrom, hc1, h1]
        simp only [Bool.false_eq_true, if_false, Option.some.injEq]
        omega
      · intro j cj hj hcj
        cases j with
        | zero =>
          simp only [List.getElem?_cons_zero, Option.some.injEq] at hcj
          rw [← hcj]
          exact hc1
        | succ m =>
          exact h4 m cj (Nat.lt_of_succ_lt_succ hj) (by simpa using hcj)

/-- C17: whenever `isColumnHeader(text)` is true, `getColumn(TrimSpace(text))`
returns a column, the first one in defined order whose header matches the
trimmed text; so the filter loop never dereferences a nil column and `parse`
never ends in a nil dereference. -/
theorem getColumn_of_isColumnHeader (table : TableDef) :
    (∀ text, table.isColumnHeader text = true →
      ∃ (k : Nat) (ck : ColumnDef), table.getColumn (TrimSpace text) = some k ∧
        table.Columns[k]? = some ck ∧ ck.Header (TrimSpace text) = true ∧
        ∀ (j : Nat) (cj : ColumnDef), j < k → table.Columns[j]? = some cj →
          cj.Header (TrimSpace text) = false) ∧
    (∀ (i count : Int) (texts acc : List RectText),
      (filterLoop i count table texts acc).2 ≠ none) ∧
    (∀ reader, (table.parse reader).outcome ≠ .nilDeref) := by
  refine ⟨fun text h => ?_, fun i count texts acc => ?_, fun reader => ?_⟩
  · obtain ⟨n, ck, h1, h2, h3, h4⟩ := getColumnFrom_first (TrimSpace text) table.Columns 0 h
    rw [Nat.zero_add] at h1
    exact ⟨n, ck, h1, h2, h3, h4⟩
  · obtain ⟨cols1, h1, -, -⟩ := filterLoop_eq i count texts table acc
    rw [h1]
    simp
  · unfold TableDef.parse
    split
    · simp
    · rw [(parseLoop_points _ _ _ _ _).1]
      simp

/-- Witness of C17: the fragment text ` Amount ` is a header and is looked up as
column 1. -/
theorem getColumn_of_isColumnHeader_witness :
    ∃ (k : Nat) (ck : ColumnDef), exampleTable.getColumn (TrimSpace " Amount ") = some k ∧
      exampleTable.Columns[k]? = some ck ∧ ck.Header (TrimSpace " Amount ") = true ∧
      ∀ (j : Nat) (cj : ColumnDef), j < k → exampleTable.Columns[j]? = some cj →
        cj.Header (TrimSpace " Amount ") = false :=
  (getColumn_of_isColumnHeader exampleTable).1 " Amount " (by decide)

/-! ## The located pages (C19) -/

theorem getRelevantPagesLoop_eq_locatedPages (table : TableDef) (pages acc : List Page)
    (hr : ∀ p ∈ pages, p.renders = true) :
    getRelevantPagesLoop table pages acc = .ok (acc ++ locatedPages table pages) := by
  induction pages generalizing acc with
  | nil => simp [getRelevantPagesLoop, locatedPages]
  | cons p ps ih =>
    have hps : ∀ q ∈ ps, q.renders = true := fun q hq => hr q (List.mem_cons_of_mem _ hq)
    cases hs : p.textMatches table.StartRegex with
    | false =>
      rw [getRelevantPagesLoop_skip table p ps acc (hr p (List.mem_cons_self _ _)) hs, ih acc hps]
      simp [locatedPages, hs]
    | true =>
      cases he : p.textMatches table.EndRegex with
      | false =>
        rw [getRelevantPagesLoop_keep table p ps acc hs he, ih _ hps]
        simp [locatedPages, hs, he]
      | true =>
        rw [getRelevantPagesLoop_stop table p ps acc hs he]
        simp [locatedPages, hs, he]

/-- C19: when every page renders, `getRelevantPages` returns, in page order, the
pages matching the start marker up to and including the first page matching
both markers (all pages matching the start marker when no page matches both);
every returned page matches the start marker and no returned page other than
the last matches the end marker. -/
theorem getRelevantPages_eq_locatedPages (table : TableDef) (reader : Reader)
    (hr : ∀ p ∈ reader.pages, p.renders = true) :
    table.getRelevantPages reader = .ok (locatedPages table reader.pages) ∧
    (locatedPages table reader.pages).Sublist reader.pages ∧
    (∀ p ∈ locatedPages table reader.pages, p.textMatches table.StartRegex = true) ∧
    (∀ p ∈ (locatedPages table reader.pages).dropLast,
      p.textMatches table.EndRegex = false) := by
  refine ⟨?_, ?_, ?_, ?_⟩
  · have := getRelevantPagesLoop_eq_locatedPages table reader.pages [] hr
    rwa [List.nil_append] at this
  · unfold locatedPages
    conv_rhs => rw [← List.takeWhile_append_dropWhile
      (fun p => !(p.textMatches table.StartRegex && p.textMatches table.EndRegex)) reader.pages]
    apply List.Sublist.append (List.filter_sublist _)
    rw [List.find?_eq_head?_dropWhile_not]
    cases hd : List.dropWhile (fun p => !(p.textMatches table.StartRegex &&
        p.textMatches table.EndRegex)) reader.pages with
    | nil => simp
    | cons a as => simp
  · intro p hp
    unfold locatedPages at hp
    rcases List.mem_append.1 hp with h | h
    · exact (List.mem_filter.1 h).2
    · simp only [Option.mem_toList, Option.mem_def] at h
      have := List.find?_some h
      simp only [Bool.and_eq_true] at this
      exact this.1
  · intro p hp
    have hA : ∀ q ∈ (reader.pages.takeWhile (fun p =>
        !(p.textMatches table.StartRegex && p.textMatches table.EndRegex))).filter
        (fun p => p.textMatches table.StartRegex), q.textMatches table.EndRegex = false := by
      intro q hq
      obtain ⟨h1, h2⟩ := List.mem_filter.1 hq
      have h3 := List.mem_takeWhile_imp h1
      simp only [h2, Bool.true_and, Bool.not_eq_true'] at h3
      exact h3
    unfold locatedPages at hp
    cases hf : reader.pages.find? (fun p =>
        p.textMatches table.StartRegex && p.textMatches table.EndRegex) with
    | none =>
      rw [hf] at hp
      simp only [Option.toList_none, List.append_nil] at hp
      exact hA p (List.mem_of_mem_dropLast hp)
    | some x =>
      rw [hf] at hp
      simp only [Option.toList_some, List.dropLast_concat] at hp
      exact hA p hp

/-- Witness of C19: a four-page document. -/
theorem getRelevantPages_eq_locatedPages_witness :
    exampleTable.getRelevantPages
      ⟨[pageOf "Statement", pageOf "Total", pageOf "Statement Total", pageOf "Statement"]⟩ =
      .ok (locatedPages exampleTable
        [pageOf "Statement", pageOf "Total", pageOf "Statement Total", pageOf "Statement"]) :=
  (getRelevantPages_eq_locatedPages exampleTable
    ⟨[pageOf "Statement", pageOf "Total", pageOf "Statement Total", pageOf "Statement"]⟩
    (by decide)).1

/-! ## Row invariants (C18) -/

/-- The classification step in terms of the column the fragment is classified
into. -/
theorem classifyFrom_eq_columnOf (count : Nat) (text : RectText) (cols : List ColumnDef)
    (i0 : Nat) (st : RowState) :
    classifyFrom count text cols i0 st =
      match columnOf text.Rect.Min.X cols i0 with
      | none => st
      | some j =>
        ⟨if st.currentRow.cellCount = count then closeRow st.rows st.currentRow else st.rows,
          (if st.currentRow.cellCount = count then newRow else st.currentRow).addCell
            (TrimSpace text.S) j⟩ := by
  induction cols generalizing i0 with
  | nil => rfl
  | cons c cs ih =>
    simp only [classifyFrom, columnOf]
    by_cases hm : |text.Rect.Min.X - c.x| ≤ 1
    · rw [if_pos (Or.inr hm), if_pos hm]
      split_ifs <;> rfl
    · rw [if_neg (fun h => hm ((anchor_test_iff _ _).1 h)), if_neg hm]
      exact ih (i0 + 1)

theorem columnOf_lt (X : Coord) (cols : List ColumnDef) (i0 j : Nat)
    (h : columnOf X cols i0 = some j) : i0 ≤ j ∧ j < i0 + cols.length := by
  induction cols generalizing i0 with
  | nil => simp [columnOf] at h
  | cons c cs ih =>
    simp only [columnOf] at h
    split_ifs at h
    · simp only [Option.some.injEq] at h
      subst h
      simp
    · have := ih (i0 + 1) h
      simp only [List.length_cons]
      omega

/-- The column a fragment is classified into is the least index whose anchor is
within 1 of its `X`. -/
theorem columnOf_eq_some_iff (X : Coord) (cols : List ColumnDef) (j : Nat) :
    columnOf X cols 0 = some j ↔
      ∃ cj : ColumnDef, cols[j]? = some cj ∧ |X - cj.x| ≤ 1 ∧
        ∀ (i : Nat) (ci : ColumnDef), i < j → cols[i]? = some ci → ¬ |X - ci.x| ≤ 1 := by
  have key : ∀ (cols : List ColumnDef) (i0 n : Nat), columnOf X cols i0 = some (i0 + n) ↔
      ∃ cj : ColumnDef, cols[n]? = some cj ∧ |X - cj.x| ≤ 1 ∧
        ∀ (i : Nat) (ci : ColumnDef), i < n → cols[i]? = some ci → ¬ |X - ci.x| ≤ 1 := by
    intro cols
    induction cols with
    | nil => intro i0 n; simp [columnOf]
    | cons c cs ih =>
      intro i0 n
      simp only [columnOf]
      by_cases hm : |X - c.x| ≤ 1
      · rw [if_pos hm]
        constructor
        · intro h
          simp only [Option.some.injEq] at h
          have : n = 0 := by omega
          subst this
          exact ⟨c, by simp, hm, fun i ci hi => absurd hi (Nat.not_lt_zero i)⟩
        · rintro ⟨cj, hcj, -, hfirst⟩
          cases n with
          | zero => rfl
          | succ m => exact absurd hm (hfirst 0 c (Nat.succ_pos m) (by simp))
      · rw [if_neg hm]
        cases n with
        | zero =>
          constructor
          · intro h
            have := (columnOf_lt X cs (i0 + 1) _ h).1
            omega
          · rintro ⟨cj, hcj, hmj, -⟩
            simp only [List.getElem?_cons_zero, Option.some.injEq] at hcj
            subst hcj
            exact absurd hmj hm
        | succ m =>
          have e : i0 + (m + 1) = i0 + 1 + m := by omega
          rw [e, ih (i0 + 1) m]
          constructor
          · rintro ⟨cj, hcj, hmj, hfirst⟩
            refine ⟨cj, by simpa using hcj, hmj, ?_⟩
            intro i ci hi hci
            cases i with
            | zero =>
              simp only [List.getElem?_cons_zero, Option.some.injEq] at hci
              subst hci
              exact hm
            | succ i1 => exact hfirst i1 ci (by omega) (by simpa using hci)
          · rintro ⟨cj, hcj, hmj, hfirst⟩
            refine ⟨cj, by simpa using hcj, hmj, ?_⟩
            intro i ci hi hci
            exact hfirst (i + 1) ci (by omega) (by simpa using hci)
  have := key cols 0 j
  rwa [Nat.zero_add] at this

/-- A row whose indices are distinct and below `N` holds at most `N` cells. -/
theorem length_le_of_keys (m : List (Nat × String)) (N : Nat)
    (hnd : (m.map Prod.fst).Nodup) (hlt : ∀ k ∈ m.map Prod.fst, k < N) : m.length ≤ N := by
  have h1 : (m.map Prod.fst).toFinset ⊆ Finset.range N := by
    intro k hk
    exact Finset.mem_range.2 (hlt k (List.mem_toFinset.1 hk))
  have h2 := Finset.card_le_card h1
  rw [List.toFinset_card_of_nodup hnd, List.length_map, Finset.card_range] at h2
  exact h2

/-- A row with `N` distinct indices below `N` holds every index below `N`. -/
theorem mem_keys_of_length_eq (m : List (Nat × String)) (N : Nat)
    (hnd : (m.map Prod.fst).Nodup) (hlt : ∀ k ∈ m.map Prod.fst, k < N) (hlen : m.length = N)
    (k : Nat) (hk : k < N) : k ∈ m.map Prod.fst := by
  have h1 : (m.map Prod.fst).toFinset ⊆ Finset.range N := by
    intro j hj
    exact Finset.mem_range.2 (hlt j (List.mem_toFinset.1 hj))
  have h2 : (m.map Prod.fst).toFinset = Finset.range N := by
    apply Finset.eq_of_subset_of_card_le h1
    rw [List.toFinset_card_of_nodup hnd, List.length_map, Finset.card_range, hlen]
  have : k ∈ (m.map Prod.fst).toFinset := by rw [h2]; exact Finset.mem_range.2 hk
  exact List.mem_toFinset.1 this

theorem isComplete_of_keys (r : tableRow) (N : Nat)
    (hnd : (r.cellByCol.map Prod.fst).Nodup) (hlt : ∀ k ∈ r.cellByCol.map Prod.fst, k < N)
    (hlen : r.cellCount = N) : r.isComplete N := by
  have hmem := mem_keys_of_length_eq r.cellByCol N hnd hlt hlen
  have hfind : ∀ k, mapFind k r.cellByCol ≠ none ↔ k < N := by
    intro k
    rw [Ne, mapFind_eq_none_iff, not_not]
    exact ⟨hlt k, hmem k⟩
  refine ⟨hlen, hfind, ?_, ?_⟩
  · simp only [tableRow.cells, List.length_map, List.length_range]
    exact hlen
  · intro k hk
    have hk1 : k < r.cellByCol.length := by rw [show r.cellByCol.length = N from hlen]; exact hk
    simp only [tableRow.cells, List.getElem?_map, List.getElem?_range hk1, Option.map_some',
      mapGet]
    cases hv : mapFind k r.cellByCol with
    | none => exact absurd hv ((hfind k).2 hk)
    | some v => rfl

/-- One classification step keeps the indices of the current row distinct and
below the number of columns, and the finalized rows complete. -/
theorem classify_keys (columns : List ColumnDef) (st : RowState) (text : RectText)
    (hnd : (st.currentRow.cellByCol.map Prod.fst).Nodup)
    (hlt : ∀ k ∈ st.currentRow.cellByCol.map Prod.fst, k < columns.length)
    (hrows : ∀ r ∈ st.rows, r.isComplete columns.length) :
    ((classify columns st text).currentRow.cellByCol.map Prod.fst).Nodup ∧
    (∀ k ∈ (classify columns st text).currentRow.cellByCol.map Prod.fst, k < columns.length) ∧
    ∀ r ∈ (classify columns st text).rows, r.isComplete columns.length := by
  unfold classify
  rw [classifyFrom_eq_columnOf]
  cases hc : columnOf text.Rect.Min.X columns 0 with
  | none => exact ⟨hnd, hlt, hrows⟩
  | some j =>
    have hj : j < columns.length := by
      have := (columnOf_lt _ _ _ _ hc).2
      omega
    simp only
    by_cases hfull : st.currentRow.cellCount = columns.length
    · rw [if_pos hfull, if_pos hfull]
      refine ⟨by simp [tableRow.addCell, newRow, mapSet], ?_, ?_⟩
      · intro k hk
        simp only [tableRow.addCell, newRow, mapSet, List.map_cons, List.map_nil,
          List.mem_singleton] at hk
        rw [hk]; exact hj
      · intro r hr
        rcases mem_closeRow hr with h | rfl
        · exact hrows r h
        · exact isComplete_of_keys _ _ hnd hlt hfull
    · rw [if_neg hfull, if_neg hfull]
      refine ⟨nodup_keys_mapSet _ _ _ hnd, ?_, hrows⟩
      intro k hk
      simp only [tableRow.addCell, keys_mapSet] at hk
      split_ifs at hk
      · exact hlt k hk
      · rcases List.mem_append.1 hk with h | h
        · exact hlt k h
        · rw [List.mem_singleton.1 h]; exact hj

theorem foldl_classify_keys (columns : List ColumnDef) (texts : List RectText) (st : RowState)
    (hnd : (st.currentRow.cellByCol.map Prod.fst).Nodup)
    (hlt : ∀ k ∈ st.currentRow.cellByCol.map Prod.fst, k < columns.length)
    (hrows : ∀ r ∈ st.rows, r.isComplete columns.length) :
    ((texts.foldl (classify columns) st).currentRow.cellByCol.map Prod.fst).Nodup ∧
    (∀ k ∈ (texts.foldl (classify columns) st).currentRow.cellByCol.map Prod.fst,
      k < columns.length) ∧
    ∀ r ∈ (texts.foldl (classify columns) st).rows, r.isComplete columns.length := by
  induction texts generalizing st with
  | nil => exact ⟨hnd, hlt, hrows⟩
  | cons t ts ih =>
    simp only [List.foldl_cons]
    obtain ⟨h1, h2, h3⟩ := classify_keys columns st t hnd hlt hrows
    exact ih _ h1 h2 h3

/-- C18: at every point of the row assembly of a page with `N` columns the
indices held by the current row are below `N` and its `cellCount` is at most
`N`; a row that is full (and so is finalized when a further fragment is
classified) and every finalized row kept holds exactly the indices `0 .. N-1`
and is emitted as exactly `N` values, position `k` being the text stored for
column `k`; and every row handed to the callback for the page, except possibly
the last one, is such a row. -/
theorem row_invariants (columns : List ColumnDef) (texts : List RectText) :
    (∀ k, mapFind k (texts.foldl (classify columns) ⟨[], newRow⟩).currentRow.cellByCol ≠ none →
      k < columns.length) ∧
    (texts.foldl (classify columns) ⟨[], newRow⟩).currentRow.cellCount ≤ columns.length ∧
    ((texts.foldl (classify columns) ⟨[], newRow⟩).currentRow.cellCount = columns.length →
      (texts.foldl (classify columns) ⟨[], newRow⟩).currentRow.isComplete columns.length) ∧
    (∀ r ∈ (texts.foldl (classify columns) ⟨[], newRow⟩).rows,
      r.isComplete columns.length) ∧
    ∀ r ∈ (assembleRows columns texts).dropLast, r.isComplete columns.length := by
  obtain ⟨h1, h2, h3⟩ := foldl_classify_keys columns texts ⟨[], newRow⟩
    (by simp [newRow]) (by simp [newRow]) (by simp)
  refine ⟨?_, length_le_of_keys _ _ h1 h2, fun hfull => isComplete_of_keys _ _ h1 h2 hfull,
    h3, ?_⟩
  · intro k hk
    rw [Ne, mapFind_eq_none_iff, not_not] at hk
    exact h2 k hk
  · intro r hr
    unfold assembleRows closeRow at hr
    simp only at hr
    split_ifs at hr
    · rw [List.dropLast_concat] at hr
      exact h3 r hr
    · exact h3 r (List.mem_of_mem_dropLast hr)

/-- Witness of C18: after the fragments `Alice` and `42` of the example the
current row is full, hence complete. -/
theorem row_invariants_witness :
    tableRow.isComplete
      ([fragment "Alice" 10 500, fragment "42" 100 500].foldl
        (classify [⟨matchExact "Name", 10⟩, ⟨matchExact "Amount", 100⟩])
        ⟨[], newRow⟩).currentRow
      (List.length [(⟨matchExact "Name", 10⟩ : ColumnDef), ⟨matchExact "Amount", 100⟩]) :=
  (row_invariants [⟨matchExact "Name", 10⟩, ⟨matchExact "Amount", 100⟩]
    [fragment "Alice" 10 500, fragment "42" 100 500]).2.2.1 (by decide!)

/-! ## A column that receives no fragment (C16) -/

theorem getColumn_setColumnX (table : TableDef) (k0 : Nat) (v : Coord) (s : String) :
    TableDef.getColumn { table with Columns := setColumnX table.Columns k0 v } s =
      table.getColumn s :=
  getColumnFrom_congr _ _ _ _ (map_Header_setColumnX _ _ _)

theorem isColumnHeader_setColumnX (table : TableDef) (k0 : Nat) (v : Coord) (s : String) :
    TableDef.isColumnHeader { table with Columns := setColumnX table.Columns k0 v } s =
      table.isColumnHeader s :=
  any_header_congr _ _ _ (map_Header_setColumnX _ _ _)

theorem getElem?_setColumnX_self (cols : List ColumnDef) (k : Nat) (v : Coord)
    (hk : k < cols.length) : ((setColumnX cols k v)[k]?).map ColumnDef.x = some v := by
  induction cols generalizing k with
  | nil => simp at hk
  | cons c cs ih =>
    cases k with
    | zero => simp [setColumnX]
    | succ n =>
      simp only [setColumnX, List.getElem?_cons_succ]
      exact ih n (by simpa using hk)

/-- A column returned by `getColumn` exists and its header matches. -/
theorem getColumnFrom_some (header : String) (cols : List ColumnDef) (i0 k : Nat)
    (h : getColumnFrom header cols i0 = some k) :
    cols.any (fun c => c.Header header) = true ∧ i0 ≤ k ∧ k < i0 + cols.length := by
  induction cols generalizing i0 with
  | nil => simp [getColumnFrom] at h
  | cons c cs ih =>
    simp only [getColumnFrom] at h
    split_ifs at h with hc
    · simp only [Option.some.injEq] at h
      subst h
      simp [hc]
    · obtain ⟨h1, h2, h3⟩ := ih (i0 + 1) h
      simp only [List.any_cons, h1, Bool.or_true, List.length_cons, true_and]
      omega

/-- After the filter loop the anchor of column `k` is the `Rect.Min.X` of the
last surviving fragment that binds column `k`. -/
theorem filterLoop_last_binder (i count : Int) (k : Nat) (t : RectText)
    (pre post : List RectText) (table : TableDef) (acc : List RectText)
    (hs : skipText table i count t = false)
    (hb : table.getColumn (TrimSpace t.S) = some k)
    (hpost : ∀ u ∈ post, skipText table i count u = false →
      table.getColumn (TrimSpace u.S) ≠ some k) :
    ((filterLoop i count table (pre ++ t :: post) acc).1.Columns[k]?).map ColumnDef.x =
      some t.Rect.Min.X := by
  induction pre generalizing table acc with
  | nil =>
    obtain ⟨hany, -, hlt⟩ := getColumnFrom_some _ _ _ _ hb
    have hhead : table.isColumnHeader t.S = true := hany
    simp only [List.nil_append, filterLoop, hs, hhead, hb, if_true]
    simp only [Bool.false_eq_true, if_false]
    obtain ⟨cols1, h1, -, h3⟩ := filterLoop_eq i count post
      { table with Columns := setColumnX table.Columns k t.Rect.Min.X } acc
    rw [h1]
    simp only
    rw [h3 k (fun u hu hu1 => by
      rw [getColumn_setColumnX]
      exact hpost u hu hu1)]
    exact getElem?_setColumnX_self _ _ _ (by simpa using hlt)
  | cons u us ih =>
    simp only [List.cons_append, filterLoop]
    by_cases hsu : skipText table i count u = true
    · rw [if_pos hsu]
      exact ih table acc hs hb hpost
    · rw [if_neg hsu]
      by_cases hhu : table.isColumnHeader u.S = true
      · rw [if_pos hhu]
        obtain ⟨n, ck, h1, -, -, -⟩ := getColumnFrom_first (TrimSpace u.S) table.Columns 0 hhu
        have h1a : table.getColumn (TrimSpace u.S) = some (0 + n) := h1
        rw [h1a]
        simp only
        apply ih
        · exact hs
        · rw [getColumn_setColumnX]; exact hb
        · intro w hw hw1
          rw [getColumn_setColumnX]
          exact hpost w hw hw1
      · rw [if_neg hhu]
        exact ih table _ hs hb hpost

theorem mem_mapSet (k : Nat) (v : String) (m : List (Nat × String)) (p : Nat × String)
    (h : p ∈ mapSet k v m) : p = (k, v) ∨ p ∈ m := by
  induction m with
  | nil =>
    simp only [mapSet, List.mem_singleton] at h
    exact Or.inl h
  | cons q rest ih =>
    obtain ⟨k1, v1⟩ := q
    simp only [mapSet] at h
    split_ifs at h
    · rcases List.mem_cons.1 h with h1 | h1
      · exact Or.inl h1
      · exact Or.inr (List.mem_cons_of_mem _ h1)
    · rcases List.mem_cons.1 h with h1 | h1
      · exact Or.inr (h1 ▸ List.mem_cons_self _ _)
      · rcases ih h1 with h2 | h2
        · exact Or.inl h2
        · exact Or.inr (List.mem_cons_of_mem _ h2)

/-- Every cell of a row assembled from `data` is the trimmed text of a fragment
of `data`, held at the index of the column the fragment is classified into. -/
theorem assembleRows_cells_from (columns : List ColumnDef) (data : List RectText) :
    ∀ r ∈ assembleRows columns data, ∀ cell ∈ r.cellByCol,
      ∃ t ∈ data, cell.2 = TrimSpace t.S ∧
        columnOf t.Rect.Min.X columns 0 = some cell.1 := by
  have key : ∀ (ts : List RectText) (st : RowState), (∀ t ∈ ts, t ∈ data) →
      ((∀ r ∈ st.rows, ∀ cell ∈ r.cellByCol, ∃ t ∈ data, cell.2 = TrimSpace t.S ∧
          columnOf t.Rect.Min.X columns 0 = some cell.1) ∧
        ∀ cell ∈ st.currentRow.cellByCol, ∃ t ∈ data, cell.2 = TrimSpace t.S ∧
          columnOf t.Rect.Min.X columns 0 = some cell.1) →
      ((∀ r ∈ (ts.foldl (classify columns) st).rows, ∀ cell ∈ r.cellByCol,
          ∃ t ∈ data, cell.2 = TrimSpace t.S ∧
            columnOf t.Rect.Min.X columns 0 = some cell.1) ∧
        ∀ cell ∈ (ts.foldl (classify columns) st).currentRow.cellByCol,
          ∃ t ∈ data, cell.2 = TrimSpace t.S ∧
            columnOf t.Rect.Min.X columns 0 = some cell.1) := by
    intro ts
    induction ts with
    | nil => intro st _ h; exact h
    | cons t ts ih =>
      intro st hmem hst
      obtain ⟨hrows, hcur⟩ := hst
      simp only [List.foldl_cons]
      apply ih _ (fun u hu => hmem u (List.mem_cons_of_mem _ hu))
      unfold classify
      rw [classifyFrom_eq_columnOf]
      cases hc : columnOf t.Rect.Min.X columns 0 with
      | none => exact ⟨hrows, hcur⟩
      | some j =>
        simp only
        constructor
        · intro r hr
          split_ifs at hr
          · rcases mem_closeRow hr with h | rfl
            · exact hrows r h
            · exact hcur
          · exact hrows r hr
        · intro cell hcell
          simp only [tableRow.addCell] at hcell
          rcases mem_mapSet _ _ _ _ hcell with h | h
          · exact ⟨t, hmem t (List.mem_cons_self _ _), by rw [h], by rw [h]; exact hc⟩
          · split_ifs at h
            · simp [newRow] at h
            · exact hcur cell h
  have h0 := key data ⟨[], newRow⟩ (fun t ht => ht)
    ⟨fun r hr => by simp at hr, fun cell hcell => by simp [newRow] at hcell⟩
  intro r hr
  unfold assembleRows at hr
  rcases mem_closeRow hr with h1 | rfl
  · exact h0.1 r h1
  · exact h0.2

/-- C11: the header-binding pass of a page never fails; afterwards the anchor of
column `k` is the `Rect.Min.X` of the last surviving fragment whose trimmed
text is looked up as column `k` (the first column in defined order whose header
matches it), and the column is as before the page when there is no such
fragment; the header matchers are unchanged; no data fragment of the page has a
trimmed text matching a column header, and no cell of a row of the page is such
a text: every cell is the trimmed text of a data fragment. -/
theorem header_binding (table : TableDef) (i count : Int) (page : Page) :
    ∃ cols1 data, filterLoop i count (runObserver table page) page.texts [] =
        (⟨table.StartRegex, table.EndRegex, cols1, (runObserver table page).startPoint,
          (runObserver table page).endPoint⟩, some data) ∧
      cols1.map ColumnDef.Header = table.Columns.map ColumnDef.Header ∧
      (∀ (k : Nat) (pre post : List RectText) (t : RectText), page.texts = pre ++ t :: post →
        skipText (runObserver table page) i count t = false →
        table.getColumn (TrimSpace t.S) = some k →
        (∀ u ∈ post, skipText (runObserver table page) i count u = false →
          table.getColumn (TrimSpace u.S) ≠ some k) →
        (cols1[k]?).map ColumnDef.x = some t.Rect.Min.X) ∧
      (∀ k : Nat, (∀ t ∈ page.texts, skipText (runObserver table page) i count t = false →
          table.getColumn (TrimSpace t.S) ≠ some k) →
        cols1[k]? = table.Columns[k]?) ∧
      (∀ t ∈ data, t ∈ page.texts ∧ table.isColumnHeader t.S = false) ∧
      ∀ r ∈ assembleRows cols1 data, ∀ cell ∈ r.cellByCol,
        (∃ t ∈ data, cell.2 = TrimSpace t.S) ∧
        ∀ c ∈ table.Columns, c.Header cell.2 = false := by
  obtain ⟨hc, hS, hE⟩ := foldl_observer_fields page.observerCalls table
  have hhead : ∀ s, (runObserver table page).isColumnHeader s = table.isColumnHeader s := by
    intro s
    unfold TableDef.isColumnHeader
    rw [runObserver_Columns]
  have hget : ∀ s, (runObserver table page).getColumn s = table.getColumn s := by
    intro s
    unfold TableDef.getColumn
    rw [runObserver_Columns]
  obtain ⟨cols1, h1, h2, h3⟩ := filterLoop_eq i count page.texts (runObserver table page) []
  have hdata : ∀ t ∈ page.texts.filter (fun t =>
      !skipText (runObserver table page) i count t &&
        !(runObserver table page).isColumnHeader t.S),
      t ∈ page.texts ∧ table.isColumnHeader t.S = false := by
    intro t ht
    obtain ⟨g1, g2⟩ := List.mem_filter.1 ht
    simp only [Bool.and_eq_true, Bool.not_eq_true', hhead] at g2
    exact ⟨g1, g2.2⟩
  refine ⟨cols1, _, ?_, by rw [h2, runObserver_Columns], ?_, ?_, hdata, ?_⟩
  · rw [h1, List.nil_append]
    unfold runObserver
    rw [hS, hE]
  · intro k pre post t hd hs hb hpost
    have := filterLoop_last_binder i count k t pre post (runObserver table page) [] hs
      (by rw [hget]; exact hb) (fun u hu hu1 => by rw [hget]; exact hpost u hu hu1)
    rw [← hd, h1] at this
    exact this
  · intro k hk
    rw [h3 k (fun t ht hsk => by rw [hget]; exact hk t ht hsk), runObserver_Columns]
  · intro r hr cell hcell
    obtain ⟨t, ht, hv, -⟩ := assembleRows_cells_from cols1 _ r hr cell hcell
    refine ⟨⟨t, ht, hv⟩, ?_⟩
    have hnh := (hdata t ht).2
    unfold TableDef.isColumnHeader at hnh
    rw [List.any_eq_false] at hnh
    intro c hcm
    rw [hv]
    simpa using hnh c hcm

/-- Witness of C11: on the example page the anchor of `Amount` becomes 100, the
`X` of the header fragment. -/
theorem header_binding_witness :
    ∃ cols1 data, filterLoop 0 1 (runObserver exampleTable examplePage) examplePage.texts [] =
        (⟨exampleTable.StartRegex, exampleTable.EndRegex, cols1,
          (runObserver exampleTable examplePage).startPoint,
          (runObserver exampleTable examplePage).endPoint⟩, some data) ∧
      (cols1[1]?).map ColumnDef.x = some 100 := by
  obtain ⟨cols1, data, h1, -, h3, -, -, -⟩ := header_binding exampleTable 0 1 examplePage
  exact ⟨cols1, data, h1, h3 1 [fragment "Name" 10 600]
    [fragment "Alice" 10 500, fragment "42" 100 500, fragment "Bob" 11 400, fragment "7" 99 400]
    (fragment "Amount" 100 600) rfl (by decide!) (by decide) (by decide!)⟩

/-! ## Rows page by page (C14) -/

theorem bitsAux_zero (fuel : Nat) : bitsAux fuel 0 = 0 := by
  cases fuel <;> simp [bitsAux]

/-- With enough fuel `bitsAux` counts the binary digits. -/
theorem bitsAux_spec (fuel n : Nat) (h : n ≤ fuel) :
    n < 2 ^ bitsAux fuel n ∧ (n ≠ 0 → 2 ^ bitsAux fuel n ≤ 2 * n) := by
  induction fuel generalizing n with
  | zero =>
    have : n = 0 := by omega
    subst this
    simp [bitsAux]
  | succ f ih =>
    by_cases hn : n = 0
    · subst hn
      simp [bitsAux]
    · simp only [bitsAux, hn, if_false]
      obtain ⟨h1, h2⟩ := ih (n / 2) (by omega)
      rw [pow_succ]
      constructor
      · omega
      · intro _
        by_cases h0 : n / 2 = 0
        · rw [h0, bitsAux_zero]
          omega
        · have := h2 h0
          omega

theorem bitLength_spec (n : Nat) (hn : n ≠ 0) :
    n < 2 ^ bitLength n ∧ 2 ^ bitLength n ≤ 2 * n :=
  ⟨(bitsAux_spec n n (Nat.le_refl n)).1, (bitsAux_spec n n (Nat.le_refl n)).2 hn⟩

/-- Bounds on a quotient from the digit counts of numerator and denominator. -/
theorem quotient_bounds (N D P Q a : ℚ) (hD : 0 < D) (hP : 0 < P) (hQ : 0 < Q)
    (ha : a = N / D) (n1 : N < P) (n2 : P ≤ 2 * N) (d1 : D < Q) (d2 : Q ≤ 2 * D) :
    a < P / Q * 2 ∧ P / Q * 2⁻¹ ≤ a := by
  have hN : 0 < N := by linarith
  subst ha
  constructor
  · rw [div_mul_eq_mul_div, div_lt_div_iff₀ hD hQ]
    nlinarith
  · rw [← div_eq_mul_inv, div_div, div_le_div_iff₀ (by positivity) hD]
    nlinarith

/-- The defining property of the binary exponent. -/
theorem floorLog2_spec (a : ℚ) (ha : 0 < a) :
    (2 : ℚ) ^ floorLog2 a ≤ a ∧ a < (2 : ℚ) ^ (floorLog2 a + 1) := by
  have hnum : 0 < a.num := Rat.num_pos.2 ha
  have hn0 : a.num.natAbs ≠ 0 := by omega
  have hd0 : a.den ≠ 0 := a.den_nz
  obtain ⟨n1, n2⟩ := bitLength_spec a.num.natAbs hn0
  obtain ⟨d1, d2⟩ := bitLength_spec a.den hd0
  have hdq : (0 : ℚ) < a.den := by exact_mod_cast Nat.pos_of_ne_zero hd0
  have ha_eq : a = (a.num.natAbs : ℚ) / (a.den : ℚ) := by
    have h1 : ((a.num.natAbs : ℕ) : ℚ) = (a.num : ℚ) := by
      rw [Nat.cast_natAbs, abs_of_pos hnum]
    rw [h1]
    exact (Rat.num_div_den a).symm
  have n1q : (a.num.natAbs : ℚ) < (2 : ℚ) ^ bitLength a.num.natAbs := by exact_mod_cast n1
  have n2q : (2 : ℚ) ^ bitLength a.num.natAbs ≤ 2 * (a.num.natAbs : ℚ) := by exact_mod_cast n2
  have d1q : (a.den : ℚ) < (2 : ℚ) ^ bitLength a.den := by exact_mod_cast d1
  have d2q : (2 : ℚ) ^ bitLength a.den ≤ 2 * (a.den : ℚ) := by exact_mod_cast d2
  have hpn : (0 : ℚ) < (2 : ℚ) ^ bitLength a.num.natAbs := by positivity
  have hpd : (0 : ℚ) < (2 : ℚ) ^ bitLength a.den := by positivity
  obtain ⟨b1, b2⟩ := quotient_bounds _ _ _ _ a hdq hpn hpd ha_eq n1q n2q d1q d2q
  have hk : ∀ j : ℤ, (2 : ℚ) ^ ((bitLength a.num.natAbs : ℤ) - (bitLength a.den : ℤ) + j) =
      (2 : ℚ) ^ bitLength a.num.natAbs / (2 : ℚ) ^ bitLength a.den * (2 : ℚ) ^ j := by
    intro j
    rw [zpow_add₀ (by norm_num), zpow_sub₀ (by norm_num), zpow_natCast, zpow_natCast]
  unfold floorLog2
  simp only
  split_ifs with hle
  · refine ⟨hle, ?_⟩
    rw [hk 1, zpow_one]
    exact b1
  · have e1 : (bitLength a.num.natAbs : ℤ) - (bitLength a.den : ℤ) - 1 + 1 =
        (bitLength a.num.natAbs : ℤ) - (bitLength a.den : ℤ) := by ring
    rw [e1]
    refine ⟨?_, lt_of_not_le hle⟩
    have e2 : (bitLength a.num.natAbs : ℤ) - (bitLength a.den : ℤ) - 1 =
        (bitLength a.num.natAbs : ℤ) - (bitLength a.den : ℤ) + (-1) := by ring
    rw [e2, hk (-1), zpow_neg, zpow_one]
    exact b2

theorem roundHalfEven_mem (m : ℚ) : roundHalfEven m = ⌊m⌋ ∨ roundHalfEven m = ⌊m⌋ + 1 := by
  unfold roundHalfEven
  split_ifs <;> simp

theorem roundHalfEven_le (m : ℚ) (K : ℤ) (h : m ≤ K) : roundHalfEven m ≤ K := by
  have hf : (⌊m⌋ : ℚ) ≤ m := Int.floor_le m
  unfold roundHalfEven
  have h0 : ⌊m⌋ ≤ K := by exact_mod_cast hf.trans h
  have hstep : (⌊m⌋ : ℚ) < m → ⌊m⌋ + 1 ≤ K := by
    intro hlt
    have : (⌊m⌋ : ℚ) < K := lt_of_lt_of_le hlt h
    have : ⌊m⌋ < K := by exact_mod_cast this
    omega
  split_ifs with h1 h2 h3
  · exact h0
  · exact hstep (by linarith)
  · exact h0
  · exact hstep (by linarith)

theorem le_roundHalfEven (m : ℚ) (K : ℤ) (h : (K : ℚ) ≤ m) : K ≤ roundHalfEven m := by
  have h0 : K ≤ ⌊m⌋ := Int.le_floor.2 h
  rcases roundHalfEven_mem m with e | e <;> rw [e] <;> omega

theorem succ_le_roundHalfEven (m : ℚ) (K : ℤ) (h : (K : ℚ) + 1 / 2 < m) :
    K + 1 ≤ roundHalfEven m := by
  have h0 : K ≤ ⌊m⌋ := Int.le_floor.2 (by linarith)
  by_cases hK : K = ⌊m⌋
  · unfold roundHalfEven
    have hfrac : 1 / 2 < m - ⌊m⌋ := by
      rw [← hK]; linarith
    rw [if_neg (by linarith), if_pos hfrac, hK]
  · rcases roundHalfEven_mem m with e | e <;> rw [e] <;> omega

theorem roundHalfEven_le_even (m : ℚ) (K : ℤ) (hK : K % 2 = 0) (h : m ≤ (K : ℚ) + 1 / 2) :
    roundHalfEven m ≤ K := by
  have hlt : m < ((K + 1 : ℤ) : ℚ) := by push_cast; linarith
  have h0 : ⌊m⌋ < K + 1 := Int.floor_lt.2 hlt
  by_cases hf : ⌊m⌋ = K
  · unfold roundHalfEven
    rw [hf]
    split_ifs with h1 h2
    · exact le_refl K
    · exact absurd h2 (by linarith)
    · exact le_refl K
  · rcases roundHalfEven_mem m with e | e <;> rw [e] <;> omega

/-- The magnitude of a rounded value: the rounded significand times the unit in
the last place. -/
theorem abs_round64 (q : ℚ) (hq : q ≠ 0) :
    |round64 q| =
      (roundHalfEven (|q| / (2 : ℚ) ^ (max (floorLog2 |q|) (-1022) - 52)) : ℚ) *
        (2 : ℚ) ^ (max (floorLog2 |q|) (-1022) - 52) := by
  have hu : (0 : ℚ) < (2 : ℚ) ^ (max (floorLog2 |q|) (-1022) - 52) := by positivity
  have hn : (0 : ℤ) ≤ roundHalfEven (|q| / (2 : ℚ) ^ (max (floorLog2 |q|) (-1022) - 52)) :=
    le_roundHalfEven _ 0 (by
      simp only [Int.cast_zero]
      exact div_nonneg (abs_nonneg q) hu.le)
  have hnq : (0 : ℚ) ≤
      (roundHalfEven (|q| / (2 : ℚ) ^ (max (floorLog2 |q|) (-1022) - 52)) : ℚ) := by
    exact_mod_cast hn
  unfold round64
  rw [if_neg hq, abs_mul, abs_mul, abs_of_nonneg hnq, abs_of_pos hu]
  split_ifs <;> simp

/-- The rounded difference is at most 1 exactly when the exact one is at most
`1 + 2^-53`: the values between 1 and `1 + 2^-53` round to 1. -/
theorem abs_round64_le_one_iff (q : ℚ) : |round64 q| ≤ 1 ↔ |q| ≤ 1 + 1 / 2 ^ 53 := by
  by_cases hq : q = 0
  · subst hq
    simp [round64]
    positivity
  have ha : 0 < |q| := abs_pos.2 hq
  obtain ⟨s1, s2⟩ := floorLog2_spec |q| ha
  rw [abs_round64 q hq]
  generalize hfl : floorLog2 |q| = fl at s1 s2
  generalize |q| = a at ha s1 s2
  have h2 : (1 : ℚ) ≤ 2 := by norm_num
  have hfl_le : a < 2 → fl ≤ 0 := by
    intro h
    by_contra hcon
    have h1 : (1 : ℤ) ≤ fl := by omega
    have := zpow_le_zpow_right₀ h2 h1
    rw [zpow_one] at this
    linarith
  have hfl_ge : 1 < a → 0 ≤ fl := by
    intro h
    by_contra hcon
    have h1 : fl + 1 ≤ 0 := by omega
    have := zpow_le_zpow_right₀ h2 h1
    rw [zpow_zero] at this
    linarith
  constructor
  · intro hle
    by_contra hcon
    have hgt : 1 + 1 / 2 ^ 53 < a := lt_of_not_le hcon
    have h53 : (0 : ℚ) < 1 / 2 ^ 53 := by positivity
    have hfl0 : 0 ≤ fl := hfl_ge (by linarith)
    have he : max fl (-1022) = fl := max_eq_left (by omega)
    rw [he] at hle
    have hu : (0 : ℚ) < (2 : ℚ) ^ (fl - 52) := by positivity
    by_cases hz : fl = 0
    · subst hz
      have hu52 : (2 : ℚ) ^ ((0 : ℤ) - 52) = 1 / 2 ^ 52 := by norm_num [zpow_neg]
      rw [hu52] at hle
      have hm : ((2 ^ 52 : ℤ) : ℚ) + 1 / 2 < a / (1 / 2 ^ 52) := by
        rw [div_div_eq_mul_div, div_one]
        push_cast
        have : a * 2 ^ 52 > (1 + 1 / 2 ^ 53) * 2 ^ 52 :=
          mul_lt_mul_of_pos_right hgt (by positivity)
        norm_num at this ⊢
        linarith
      have hn := succ_le_roundHalfEven _ _ hm
      have hnq : ((2 ^ 52 + 1 : ℤ) : ℚ) ≤ (roundHalfEven (a / (1 / 2 ^ 52)) : ℚ) := by
        exact_mod_cast hn
      have : ((2 ^ 52 + 1 : ℤ) : ℚ) * (1 / 2 ^ 52) ≤
          (roundHalfEven (a / (1 / 2 ^ 52)) : ℚ) * (1 / 2 ^ 52) :=
        mul_le_mul_of_nonneg_right hnq (by positivity)
      norm_num at this
      linarith
    · have hfl1 : (1 : ℤ) ≤ fl := by omega
      have hpw : (2 : ℚ) ^ (52 : ℤ) * (2 : ℚ) ^ (fl - 52) = (2 : ℚ) ^ fl := by
        rw [← zpow_add₀ (by norm_num)]
        congr 1
        omega
      have hc : (((2 : ℤ) ^ 52 : ℤ) : ℚ) = (2 : ℚ) ^ (52 : ℤ) := by norm_num
      have hm : (((2 : ℤ) ^ 52 : ℤ) : ℚ) ≤ a / (2 : ℚ) ^ (fl - 52) := by
        rw [le_div_iff₀ hu, hc, hpw]
        exact s1
      have hn := le_roundHalfEven _ _ hm
      have hnq : (((2 : ℤ) ^ 52 : ℤ) : ℚ) ≤ (roundHalfEven (a / (2 : ℚ) ^ (fl - 52)) : ℚ) :=
        Int.cast_le.2 hn
      have h3 : (((2 : ℤ) ^ 52 : ℤ) : ℚ) * (2 : ℚ) ^ (fl - 52) ≤
          (roundHalfEven (a / (2 : ℚ) ^ (fl - 52)) : ℚ) * (2 : ℚ) ^ (fl - 52) :=
        mul_le_mul_of_nonneg_right hnq hu.le
      rw [hc, hpw] at h3
      have h5 := zpow_le_zpow_right₀ h2 hfl1
      rw [zpow_one] at h5
      exact absurd (h5.trans (h3.trans hle)) (by norm_num)
  · intro hle
    have h53 : (1 : ℚ) / 2 ^ 53 < 1 := by norm_num
    by_cases h1 : a ≤ 1
    · have hfl0 : fl ≤ 0 := hfl_le (by linarith)
      have he0 : max fl (-1022) ≤ 0 := max_le hfl0 (by norm_num)
      generalize max fl (-1022) = e at he0
      have hu : (0 : ℚ) < (2 : ℚ) ^ (e - 52) := by positivity
      have hK : (((2 : ℤ) ^ (52 - e).toNat : ℤ) : ℚ) = (2 : ℚ) ^ (52 - e) := by
        push_cast
        rw [← zpow_natCast]
        congr 1
        omega
      have hinv : (2 : ℚ) ^ (52 - e) * (2 : ℚ) ^ (e - 52) = 1 := by
        rw [← zpow_add₀ (by norm_num)]
        have : 52 - e + (e - 52) = 0 := by ring
        rw [this, zpow_zero]
      have hm : a / (2 : ℚ) ^ (e - 52) ≤ (((2 : ℤ) ^ (52 - e).toNat : ℤ) : ℚ) := by
        rw [hK, div_le_iff₀ hu, hinv]
        exact h1
      have hn := roundHalfEven_le _ _ hm
      have hnq : (roundHalfEven (a / (2 : ℚ) ^ (e - 52)) : ℚ) ≤
          (((2 : ℤ) ^ (52 - e).toNat : ℤ) : ℚ) := by exact_mod_cast hn
      calc (roundHalfEven (a / (2 : ℚ) ^ (e - 52)) : ℚ) * (2 : ℚ) ^ (e - 52)
          ≤ (((2 : ℤ) ^ (52 - e).toNat : ℤ) : ℚ) * (2 : ℚ) ^ (e - 52) :=
            mul_le_mul_of_nonneg_right hnq hu.le
        _ = 1 := by rw [hK, hinv]
    · have h1' : 1 < a := lt_of_not_le h1
      have hfl0 : fl = 0 := le_antisymm (hfl_le (by linarith)) (hfl_ge h1')
      subst hfl0
      have he : max (0 : ℤ) (-1022) = 0 := by norm_num
      rw [he]
      have hu52 : (2 : ℚ) ^ ((0 : ℤ) - 52) = 1 / 2 ^ 52 := by norm_num [zpow_neg]
      rw [hu52]
      have hm : a / (1 / 2 ^ 52) ≤ ((2 ^ 52 : ℤ) : ℚ) + 1 / 2 := by
        rw [div_div_eq_mul_div, div_one]
        push_cast
        have : a * 2 ^ 52 ≤ (1 + 1 / 2 ^ 53) * 2 ^ 52 :=
          mul_le_mul_of_nonneg_right hle (by positivity)
        norm_num at this ⊢
        linarith
      have hn := roundHalfEven_le_even _ _ (by norm_num) hm
      have hnq : (roundHalfEven (a / (1 / 2 ^ 52)) : ℚ) ≤ ((2 ^ 52 : ℤ) : ℚ) := by
        exact_mod_cast hn
      have : (roundHalfEven (a / (1 / 2 ^ 52)) : ℚ) * (1 / 2 ^ 52) ≤
          ((2 ^ 52 : ℤ) : ℚ) * (1 / 2 ^ 52) :=
        mul_le_mul_of_nonneg_right hnq (by positivity)
      norm_num at this ⊢
      linarith

/-- The `float64` tolerance test of the source in exact terms: it passes
exactly when the exact distance is at most `1 + 2^-53`. -/
theorem near64_iff (X x : Coord) : near64 X x = true ↔ |X - x| ≤ 1 + 1 / 2 ^ 53 := by
  unfold near64
  rw [decide_eq_true_iff, abs_round64_le_one_iff]
  constructor
  · rintro (h | h)
    · rw [h, sub_self, abs_zero]
      positivity
    · exact h
  · exact Or.inr

/-! ## Column classification in binary64 (C5) -/

theorem classifyFrom64_match (count : Nat) (text : RectText) (cols : List ColumnDef)
    (i0 : Nat) (st : RowState) (i : Nat) (ci : ColumnDef)
    (hi : cols[i]? = some ci) (hm : near64 text.Rect.Min.X ci.x = true)
    (hfirst : ∀ (j : Nat) (cj : ColumnDef), j < i → cols[j]? = some cj →
      near64 text.Rect.Min.X cj.x = false) :
    classifyFrom64 count text cols i0 st =
      ⟨if st.currentRow.cellCount = count then closeRow st.rows st.currentRow else st.rows,
        (if st.currentRow.cellCount = count then newRow else st.currentRow).addCell
          (TrimSpace text.S) (i0 + i)⟩ := by
  induction cols generalizing i0 i with
  | nil => simp at hi
  | cons c cs ih =>
    cases i with
    | zero =>
      simp only [List.getElem?_cons_zero, Option.some.injEq] at hi
      subst hi
      simp only [classifyFrom64, Nat.add_zero]
      rw [if_pos hm]
      split_ifs <;> rfl
    | succ n =>
      have h0 : near64 text.Rect.Min.X c.x = false := hfirst 0 c (Nat.succ_pos n) (by simp)
      simp only [List.getElem?_cons_succ] at hi
      simp only [classifyFrom64]
      rw [if_neg (by simp [h0])]
      rw [ih (i0 + 1) n hi (fun j cj hj hc =>
        hfirst (j + 1) cj (Nat.succ_lt_succ hj) (by simpa using hc))]
      have : i0 + 1 + n = i0 + (n + 1) := by omega
      rw [this]

theorem classifyFrom64_none (count : Nat) (text : RectText) (cols : List ColumnDef)
    (i0 : Nat) (st : RowState)
    (h : ∀ (j : Nat) (cj : ColumnDef), cols[j]? = some cj →
      near64 text.Rect.Min.X cj.x = false) :
    classifyFrom64 count text cols i0 st = st := by
  induction cols generalizing i0 with
  | nil => rfl
  | cons c cs ih =>
    have h0 : near64 text.Rect.Min.X c.x = false := h 0 c (by simp)
    simp only [classifyFrom64]
    rw [if_neg (by simp [h0])]
    exact ih (i0 + 1) (fun j cj hc => h (j + 1) cj (by simpa using hc))

/-- The loop in `float64` and the loop over exact differences agree on a
fragment unless the exact distance to some anchor lies in the rounding margin
above 1, that is in `(1, 1 + 2^-53]`. -/
theorem classifyFrom64_eq_classifyFrom (count : Nat) (text : RectText)
    (cols : List ColumnDef) (i0 : Nat) (st : RowState)
    (h : ∀ c ∈ cols, ¬(1 < |text.Rect.Min.X - c.x| ∧
      |text.Rect.Min.X - c.x| ≤ 1 + 1 / 2 ^ 53)) :
    classifyFrom64 count text cols i0 st = classifyFrom count text cols i0 st := by
  induction cols generalizing i0 with
  | nil => rfl
  | cons c cs ih =>
    have hc := h c (List.mem_cons_self _ _)
    have hcs := fun d hd => h d (List.mem_cons_of_mem _ hd)
    simp only [classifyFrom64, classifyFrom]
    by_cases hm : |text.Rect.Min.X - c.x| ≤ 1
    · have h53 : (0 : ℚ) ≤ 1 / 2 ^ 53 := by positivity
      rw [if_pos ((near64_iff _ _).2 (by linarith)), if_pos (Or.inr hm)]
    · have hn : ¬ near64 text.Rect.Min.X c.x = true := fun hh =>
        hc ⟨lt_of_not_le hm, (near64_iff _ _).1 hh⟩
      rw [if_neg hn, if_neg (fun hh => hm ((anchor_test_iff _ _).1 hh))]
      exact ih (i0 + 1) hcs

/-- C5 (as amended): a data fragment is stored, trimmed, at the smallest column
index `i` whose anchor passes the tolerance test of the source as computed in
`float64` (in the current row, or in a fresh row when the current one is full),
the other cells of that row being untouched; when no column passes the test the
fragment is dropped: the current row and the finalized rows are unchanged. The
test passes exactly when the exact distance `|Rect.Min.X - anchor|` is at most
`1 + 2^-53`: the computed difference is rounded before it is compared with 1. -/
theorem classify64_first_match (columns : List ColumnDef) (st : RowState) (text : RectText) :
    (∀ (i : Nat) (ci : ColumnDef), columns[i]? = some ci →
      near64 text.Rect.Min.X ci.x = true →
      (∀ (j : Nat) (cj : ColumnDef), j < i → columns[j]? = some cj →
        near64 text.Rect.Min.X cj.x = false) →
      (classify64 columns st text).currentRow =
        (if st.currentRow.cellCount = columns.length then newRow else st.currentRow).addCell
          (TrimSpace text.S) i ∧
      mapFind i (classify64 columns st text).currentRow.cellByCol = some (TrimSpace text.S) ∧
      ∀ j, j ≠ i → mapFind j (classify64 columns st text).currentRow.cellByCol =
        mapFind j
          (if st.currentRow.cellCount = columns.length then newRow else st.currentRow).cellByCol) ∧
    ((∀ (j : Nat) (cj : ColumnDef), columns[j]? = some cj →
        near64 text.Rect.Min.X cj.x = false) →
      classify64 columns st text = st) ∧
    ∀ x : Coord, near64 text.Rect.Min.X x = true ↔
      |text.Rect.Min.X - x| ≤ 1 + 1 / 2 ^ 53 := by
  refine ⟨fun i ci hi hm hfirst => ?_, fun h => classifyFrom64_none _ text columns 0 st h,
    fun x => near64_iff _ x⟩
  have hc := classifyFrom64_match columns.length text columns 0 st i ci hi hm hfirst
  rw [Nat.zero_add] at hc
  unfold classify64
  rw [hc]
  exact ⟨rfl, mapFind_mapSet_self _ _ _, fun j hj => mapFind_mapSet_ne _ _ _ _ hj⟩

/-- Witness of C5 (as amended): with anchors 10 and 11 a fragment at `X = 21/2`
passes both tests and goes to column 0; a fragment at `X = 50` is dropped. -/
theorem classify64_first_match_witness :
    mapFind 0 (classify64 [⟨matchExact "Name", 10⟩, ⟨matchExact "Amount", 11⟩]
      ⟨[], ⟨[(1, "42")]⟩⟩ (fragment " Bob " (21 / 2) 400)).currentRow.cellByCol = some "Bob" ∧
    classify64 [⟨matchExact "Name", 10⟩, ⟨matchExact "Amount", 11⟩]
      ⟨[], ⟨[(1, "42")]⟩⟩ (fragment "Bob" 50 400) = ⟨[], ⟨[(1, "42")]⟩⟩ :=
  ⟨((classify64_first_match [⟨matchExact "Name", 10⟩, ⟨matchExact "Amount", 11⟩]
      ⟨[], ⟨[(1, "42")]⟩⟩ (fragment " Bob " (21 / 2) 400)).1 0 ⟨matchExact "Name", 10⟩ rfl
      (by decide!) (fun j cj hj => absurd hj (Nat.not_lt_zero j))).2.1,
   (classify64_first_match [⟨matchExact "Name", 10⟩, ⟨matchExact "Amount", 11⟩]
      ⟨[], ⟨[(1, "42")]⟩⟩ (fragment "Bob" 50 400)).2.1 (by
        intro j cj hj
        rcases j with _ | _ | j
        · simp only [List.getElem?_cons_zero, Option.some.injEq] at hj
          subst hj; decide!
        · simp only [List.getElem?_cons_succ, List.getElem?_cons_zero, Option.some.injEq] at hj
          subst hj; decide!
        · simp at hj)⟩

/-- C5 (counterexample): for the `float64` values nearest to `1.1` and `0.1` the
exact distance exceeds 1, so no column satisfies `|Rect.Min.X - anchor| ≤ 1`,
yet the difference computed in `float64` is 1 and the fragment is stored in
column 0 instead of being dropped. -/
theorem classify64_stores_beyond_one :
    (∀ c ∈ [(⟨matchExact "Name", double0_1⟩ : ColumnDef)],
      ¬ |(fragment "Alice" double1_1 500).Rect.Min.X - c.x| ≤ 1) ∧
    round64 (double1_1 - double0_1) = 1 ∧
    classify64 [⟨matchExact "Name", double0_1⟩] ⟨[], newRow⟩
      (fragment "Alice" double1_1 500) = ⟨[], ⟨[(0, "Alice")]⟩⟩ ∧
    (⟨[], ⟨[(0, "Alice")]⟩⟩ : RowState) ≠ ⟨[], newRow⟩ := by
  refine ⟨?_, ?_, ?_, ?_⟩ <;> decide!

end Pdf
